import Mathlib

set_option linter.unusedVariables false

/-!
Verification of the JSON-like parser and pretty-printer in src/parser.rs
(repository json-parser).  The parser is a recursive-descent engine over a
character stream; the printer renders the value tree in a normalized
textual form.  Every definition below is a shallow embedding of the
corresponding Rust function; fallible code returns Except, and the
mutual recursion of the parser is made total with an explicit fuel
parameter whose adequacy is proved below.
-/

/-- Models char::is_whitespace from the Rust standard library.  On the
ASCII range the Unicode White_Space property holds exactly for the six
characters listed here; all inputs exercised by the claims are ASCII. -/
def isWhitespaceChar (c : Char) : Bool :=
  c = ' ' || c = '\t' || c = '\n' || c = '\r' || c = Char.ofNat 11 || c = Char.ofNat 12

/-- Models char::is_numeric from the Rust standard library.  On the ASCII
range the Unicode numeric property holds exactly for the ten decimal
digits; all inputs exercised by the claims are ASCII. -/
def isNumericChar (c : Char) : Bool :=
  '0' ≤ c && c ≤ '9'

/-- Decimal digit character for a value below ten, as produced by the
Rust integer Display implementation. -/
def digitCh (d : Nat) : Char := Char.ofNat (48 + d)

/-- Decimal representation of a natural number, most significant digit
first, mirroring the Rust Display implementation for unsigned integers. -/
def natRepr (n : Nat) : List Char :=
  if h : n < 10 then [digitCh n] else natRepr (n / 10) ++ [digitCh (n % 10)]
  decreasing_by exact Nat.div_lt_self (by omega) (by omega)

/-- Decimal representation of a signed integer: a minus sign followed by
the digits of the absolute value when negative, mirroring the Rust
Display implementation for i32. -/
def intRepr (n : Int) : List Char :=
  if n < 0 then '-' :: natRepr n.natAbs else natRepr n.toNat

/-- Accumulating decimal-digit reader: consumes the whole list, failing
on the first non-digit character.  Mirrors the digit loop inside the
Rust str::parse implementation for integers. -/
def parseDigitsAux : List Char → Nat → Option Nat
  | [], acc => some acc
  | c :: cs, acc =>
    if isNumericChar c then parseDigitsAux cs (acc * 10 + (c.toNat - 48)) else none

/-- Models str::parse::<i32> from the Rust standard library: an optional
sign followed by at least one decimal digit, rejected when the value
does not fit in a signed 32-bit integer. -/
def parseI32 (s : List Char) : Option Int :=
  match s with
  | [] => none
  | c :: rest =>
    if c = '-' ∨ c = '+' then
      if rest.isEmpty then none
      else
        match parseDigitsAux rest 0 with
        | none => none
        | some m =>
          if c = '-' then if m ≤ 2 ^ 31 then some (-(m : Int)) else none
          else if m ≤ 2 ^ 31 - 1 then some (m : Int) else none
    else
      match parseDigitsAux (c :: rest) 0 with
      | none => none
      | some m => if m ≤ 2 ^ 31 - 1 then some (m : Int) else none

/-- Removes a single trailing carriage return, as str::lines does to each
produced line. -/
def stripCR (l : List Char) : List Char :=
  if l.getLast? = some '\r' then l.dropLast else l

/-- Splits a character list at every newline, keeping all segments
including a final empty one only when the text does not end with a
newline: this is exactly the segment structure of str::lines before
carriage-return stripping. -/
def rustLinesNoCR : List Char → List (List Char)
  | [] => []
  | c :: s =>
    if c = '\n' then [] :: rustLinesNoCR s
    else
      match rustLinesNoCR s with
      | [] => [[c]]
      | l :: ls => (c :: l) :: ls

/-- Models str::trim: removes leading and trailing whitespace characters. -/
def rustTrim (s : List Char) : List Char :=
  (((s.dropWhile (fun c => isWhitespaceChar c)).reverse).dropWhile
    (fun c => isWhitespaceChar c)).reverse

/-- The value model of the source: the tagged union JSONValue from
src/parser.rs, with text as character lists, numbers as mathematical
integers (the parser only ever constructs values in the i32 range), and
objects as association lists standing in for the HashMap. -/
inductive JSONValue where
  | String : List Char → JSONValue
  | Number : Int → JSONValue
  | Bool : Bool → JSONValue
  | Null : JSONValue
  | Array : List JSONValue → JSONValue
  | Object : List (List Char × JSONValue) → JSONValue
deriving Repr

/-- The document type: the object field of the JSON struct in the
source, a key-to-value mapping modelled as an association list. -/
abbrev JSON := List (List Char × JSONValue)

/-- Models HashMap::insert: replaces the value of an existing key in
place, otherwise appends the new binding.  The Rust map is unordered;
this model fixes first-insertion order, which is immaterial to the
claims (they compare mappings with distinct keys). -/
def insertPair (obj : JSON) (k : List Char) (v : JSONValue) : JSON :=
  if obj.any (fun p => p.1 == k) then
    obj.map (fun p => if p.1 == k then (k, v) else p)
  else obj ++ [(k, v)]

/-- Sequential insertion of a list of bindings, as the parse loop does. -/
def insertAll (obj : JSON) : JSON → JSON
  | [] => obj
  | (k, v) :: es => insertAll (insertPair obj k v) es

/-- Key rendering rule of Display for JSON: keys containing a space are
re-quoted, all other keys are printed bare. -/
def renderKeyPart (k : List Char) : List Char :=
  if k.contains ' ' then '"' :: k ++ ['"'] else k

/-- Models get_padded_string from the source: every line of the input
gets a two-space prefix and a trailing newline. -/
def getPaddedString (s : List Char) : List Char :=
  ((rustLinesNoCR s).map (fun l => ' ' :: ' ' :: stripCR l ++ ['\n'])).flatten

mutual

/-- Models Display for JSONValue: strings are wrapped in double quotes
with no escaping applied, numbers print in decimal, booleans and null
print their literals, arrays are comma-separated in brackets, objects
delegate to the document renderer. -/
def renderValue : JSONValue → List Char
  | .String s => '"' :: s ++ ['"']
  | .Number n => intRepr n
  | .Bool b => if b then ['t', 'r', 'u', 'e'] else ['f', 'a', 'l', 's', 'e']
  | .Null => ['n', 'u', 'l', 'l']
  | .Array vs => '[' :: renderElems vs ++ [']']
  | .Object obj => renderJSON obj
  termination_by v => (sizeOf v, 0)

/-- Comma-separated element list of an array render: a comma after every
element except the last. -/
def renderElems : List JSONValue → List Char
  | [] => []
  | [v] => renderValue v
  | v :: vs => renderValue v ++ ',' :: renderElems vs
  termination_by vs => (sizeOf vs, 0)

/-- Models Display for JSON: the empty document renders as a brace pair;
a nonempty document renders each entry on its own line, the whole block
padded by two spaces and wrapped in braces. -/
def renderJSON : JSON → List Char
  | [] => ['{', '}']
  | e :: es => '{' :: '\n' :: getPaddedString (renderEntriesStr (e :: es)) ++ ['}']
  termination_by es => (sizeOf es, 1)

/-- The raw entry text built by the loop inside Display for JSON: key
part, colon and space, value, a comma except after the last entry, and a
newline after every entry. -/
def renderEntriesStr : JSON → List Char
  | [] => []
  | [e] => renderKeyPart e.1 ++ ':' :: ' ' :: renderValue e.2 ++ ['\n']
  | e :: es =>
    renderKeyPart e.1 ++ ':' :: ' ' :: renderValue e.2 ++ ',' :: '\n' :: renderEntriesStr es
  termination_by es => (sizeOf es, 0)
  decreasing_by all_goals ((try obtain ⟨k, v⟩ := e); decreasing_tactic)

end

/-- Models JSON::skip_whitspace (source spelling): consumes characters
until the first non-whitespace one, returning it together with the
remaining stream, or none at end of stream. -/
def skipWhitspace : List Char → Option Char × List Char
  | [] => (none, [])
  | c :: ts => if isWhitespaceChar c then skipWhitspace ts else (some c, ts)

/-- The character-accumulation loop shared verbatim by JSON::parse_key
(after its opening quote) and JSON::parse_string_value: a backslash
makes the next character literal, an unescaped double quote terminates,
end of stream is an error. -/
def stringBody : List Char → List Char → Bool → Except Unit (List Char × List Char)
  | [], _, _ => .error ()
  | c :: ts, acc, escaped =>
    if escaped then stringBody ts (acc ++ [c]) false
    else if c = '"' then .ok (acc, ts)
    else if c = '\\' then stringBody ts acc true
    else stringBody ts (acc ++ [c]) false

/-- Models JSON::parse_key: skip whitespace, require an opening quote,
then read the quoted body. -/
def parseKey (ts : List Char) : Except Unit (List Char × List Char) :=
  match skipWhitspace ts with
  | (none, _) => .error ()
  | (some c, ts₂) => if c = '"' then stringBody ts₂ [] false else .error ()

/-- Models JSON::skip_colons: the next non-whitespace character must be
a colon. -/
def skipColons (ts : List Char) : Except Unit (List Char) :=
  match skipWhitspace ts with
  | (some c, ts₂) => if c = ':' then .ok ts₂ else .error ()
  | (none, _) => .error ()

/-- The accumulation loop of the true and false branches of
JSON::parse_value: push characters until one is whitespace or the
letter e, returning the pushed characters and the rest of the stream. -/
def collectTF : List Char → List Char × List Char
  | [] => ([], [])
  | c :: ts =>
    if isWhitespaceChar c || c = 'e' then ([c], ts)
    else
      match collectTF ts with
      | (a, r) => (c :: a, r)

/-- The accumulation loop of the null branch of JSON::parse_value: push
characters until one is whitespace or is the letter l with four
characters accumulated. -/
def collectNull : List Char → List Char → List Char × List Char
  | [], acc => (acc, [])
  | c :: ts, acc =>
    if isWhitespaceChar c || (c = 'l' && (acc ++ [c]).length = 4) then (acc ++ [c], ts)
    else collectNull ts (acc ++ [c])

/-- Models JSON::parse_numeric_value: greedily take the following digit
characters (by peeking), then parse the accumulated text as a signed
32-bit integer. -/
def parseNumericValue (digit : Char) (ts : List Char) : Except Unit (Int × List Char) :=
  match parseI32 (digit :: ts.takeWhile (fun c => isNumericChar c)) with
  | some n => .ok (n, ts.dropWhile (fun c => isNumericChar c))
  | none => .error ()

/-- The scan loop of JSON::parse_object_value: push every character,
toggling the in-string flag at quotes and tracking brace depth outside
strings, stopping right after the brace that closes the nested object.
Returns the pushed characters and the rest of the stream. -/
def objectScan : List Char → Bool → Nat → List Char × List Char
  | [], _, _ => ([], [])
  | c :: ts, inStr, opened =>
    if c = '"' then
      match objectScan ts (!inStr) opened with
      | (a, r) => (c :: a, r)
    else if c = '{' then
      match objectScan ts inStr (if inStr then opened else opened + 1) with
      | (a, r) => (c :: a, r)
    else if c = '}' then
      if inStr then
        match objectScan ts inStr opened with
        | (a, r) => (c :: a, r)
      else if opened = 0 then ([c], ts)
      else
        match objectScan ts inStr (opened - 1) with
        | (a, r) => (c :: a, r)
    else
      match objectScan ts inStr opened with
      | (a, r) => (c :: a, r)

/-- The inner loop of JSON::parse after a comma: peeking, a closing
brace is a trailing-comma error, whitespace is consumed, and any other
character (left unconsumed) ends the loop; an empty stream also ends
the loop. -/
def commaLoop : List Char → Except Unit (List Char)
  | [] => .ok []
  | c :: ts =>
    if c = '}' then .error ()
    else if isWhitespaceChar c then commaLoop ts
    else .ok (c :: ts)

mutual

/-- Models JSON::parse_value with explicit fuel: dispatch on the first
non-whitespace character to the string, literal, object, array or
numeric production.  The none result means fuel exhaustion, shown
unreachable for adequate fuel below. -/
def parseValue : Nat → List Char → Option (Except Unit (JSONValue × List Char))
  | 0, _ => none
  | f + 1, ts =>
    match skipWhitspace ts with
    | (none, _) => some (.error ())
    | (some c, ts₂) =>
      if c = '"' then
        match stringBody ts₂ [] false with
        | .ok (s, r) => some (.ok (.String s, r))
        | .error e => some (.error e)
      else if c = 'n' then
        match collectNull ts₂ ['n'] with
        | (acc, r) =>
          if acc = ['n', 'u', 'l', 'l'] then some (.ok (.Null, r)) else some (.error ())
      else if c = 't' then
        match collectTF ts₂ with
        | (acc, r) =>
          if 't' :: acc = ['t', 'r', 'u', 'e'] then some (.ok (.Bool true, r))
          else some (.error ())
      else if c = 'f' then
        match collectTF ts₂ with
        | (acc, r) =>
          if 'f' :: acc = ['f', 'a', 'l', 's', 'e'] then some (.ok (.Bool false, r))
          else some (.error ())
      else if c = '{' then
        match parseObjectValue f ts₂ with
        | none => none
        | some (.ok (json, r)) => some (.ok (.Object json, r))
        | some (.error e) => some (.error e)
      else if c = '[' then
        match parseArrayLoop f [] ts₂ with
        | none => none
        | some (.ok (vs, r)) => some (.ok (.Array vs, r))
        | some (.error e) => some (.error e)
      else if isNumericChar c || c = '-' then
        match parseNumericValue c ts₂ with
        | .ok (n, r) => some (.ok (.Number n, r))
        | .error e => some (.error e)
      else some (.error ())

/-- Models the loop of JSON::parse_array_value: a peeked closing bracket
ends the array; otherwise parse a value and then expect a comma to
continue or a closing bracket to end; an empty stream is an error. -/
def parseArrayLoop : Nat → List JSONValue → List Char → Option (Except Unit (List JSONValue × List Char))
  | 0, _, _ => none
  | f + 1, acc, ts =>
    match ts with
    | [] => some (.error ())
    | c :: ts' =>
      if c = ']' then some (.ok (acc, ts'))
      else
        match parseValue f ts with
        | none => none
        | some (.error e) => some (.error e)
        | some (.ok (v, ts₂)) =>
          match skipWhitspace ts₂ with
          | (none, _) => some (.error ())
          | (some c₂, ts₃) =>
            if c₂ = ',' then parseArrayLoop f (acc ++ [v]) ts₃
            else if c₂ = ']' then some (.ok (acc ++ [v], ts₃))
            else some (.error ())

/-- Models JSON::parse_object_value: isolate the nested object text with
the brace-depth and quote-state scan, then parse that text recursively
as a complete document (through the trimming entry point, as
parse_from_string does). -/
def parseObjectValue : Nat → List Char → Option (Except Unit (JSON × List Char))
  | 0, _ => none
  | f + 1, ts =>
    match objectScan ts false 0 with
    | (objStr, rest) =>
      match parseDoc f (rustTrim ('{' :: objStr)) with
      | none => none
      | some (.ok json) => some (.ok (json, rest))
      | some (.error e) => some (.error e)

/-- Models JSON::parse: the content must start with an opening brace and
end with a closing brace; the stream after the opening brace is handed
to the pair loop. -/
def parseDoc : Nat → List Char → Option (Except Unit JSON)
  | 0, _ => none
  | f + 1, content =>
    if content.head? = some '{' ∧ content.getLast? = some '}' then
      parseLoop f [] (content.drop 1)
    else some (.error ())

/-- Models the while loop of JSON::parse: while more than one character
remains, read a pair and insert it, then a closing brace finishes the
document, a comma (checked against a trailing closing brace) continues,
and anything else is an error.  When at most one character remains the
accumulated document is returned. -/
def parseLoop : Nat → JSON → List Char → Option (Except Unit JSON)
  | 0, _, _ => none
  | f + 1, obj, ts =>
    if 1 < ts.length then
      match getPair f ts with
      | none => none
      | some (.error e) => some (.error e)
      | some (.ok ((k, v), ts₂)) =>
        match skipWhitspace ts₂ with
        | (none, _) => some (.error ())
        | (some c, ts₃) =>
          if c = '}' then some (.ok (insertPair obj k v))
          else if c = ',' then
            match commaLoop ts₃ with
            | .error e => some (.error e)
            | .ok ts₄ => parseLoop f (insertPair obj k v) ts₄
          else some (.error ())
    else some (.ok obj)

/-- Models JSON::get_pair: key, colon, value. -/
def getPair : Nat → List Char → Option (Except Unit ((List Char × JSONValue) × List Char))
  | 0, _ => none
  | f + 1, ts =>
    match parseKey ts with
    | .error e => some (.error e)
    | .ok (k, ts₂) =>
      match skipColons ts₂ with
      | .error e => some (.error e)
      | .ok ts₃ =>
        match parseValue f ts₃ with
        | none => none
        | some (.error e) => some (.error e)
        | some (.ok (v, ts₄)) => some (.ok ((k, v), ts₄))

end

/-- Models JSON::parse at its call sites: the fuel is fixed to an amount
proved adequate below, so the none branch is unreachable. -/
def JSONparse (content : List Char) : Except Unit JSON :=
  match parseDoc (2 * content.length + 2) content with
  | some r => r
  | none => .error ()

/-- Models JSON::parse_from_string: trim the content, then parse. -/
def parseFromString (s : List Char) : Except Unit JSON :=
  JSONparse (rustTrim s)

/-- Text with none of the characters that break the round trip through
the printer: an unescaped double quote or backslash would be re-read
differently, and a newline would be mangled by the line-based padding. -/
def goodText (s : List Char) : Bool :=
  s.all (fun c => !(c = '"' || c = '\\' || c = '\n'))

/-- A key that the printer re-quotes (it contains a space) and whose
characters survive the round trip. -/
def goodKey (k : List Char) : Bool :=
  k.contains ' ' && goodText k

mutual

/-- Values whose rendered text re-parses to the same value: strings with
round-trip-safe text, numbers in the signed 32-bit range, booleans,
null, and arrays of such values.  Objects are excluded: the printer
emits their keys bare, which the parser rejects. -/
def validRT : JSONValue → Bool
  | .String s => goodText s
  | .Number n => decide (-(2 ^ 31) ≤ n) && decide (n ≤ 2 ^ 31 - 1)
  | .Bool _ => true
  | .Null => true
  | .Array vs => validRTList vs
  | .Object _ => false

/-- Round-trip-safe value lists, elementwise. -/
def validRTList : List JSONValue → Bool
  | [] => true
  | v :: vs => validRT v && validRTList vs

end

/-- Scalar round-trip-safe values: as validRT but with arrays also
excluded, matching the scalar-valued restriction of the specification. -/
def scalarOK : JSONValue → Bool
  | .String s => goodText s
  | .Number n => decide (-(2 ^ 31) ≤ n) && decide (n ≤ 2 ^ 31 - 1)
  | .Bool _ => true
  | .Null => true
  | .Array _ => false
  | .Object _ => false

/-- A document entry that round-trips: re-quoted safe key, scalar safe
value. -/
def validEntry (e : List Char × JSONValue) : Bool :=
  goodKey e.1 && scalarOK e.2

/-- Elementwise validEntry. -/
def validEntries (es : JSON) : Bool :=
  es.all validEntry

/-- Pairwise distinct keys, the standing invariant of the source
HashMap. -/
def keysDistinct : JSON → Bool
  | [] => true
  | (k, _) :: es => !(es.any (fun p => p.1 == k)) && keysDistinct es

/-- The text of a single rendered entry as it appears on its line: key
part, colon and space, value, and a comma unless it is the last entry. -/
def entryText (e : List Char × JSONValue) (last : Bool) : List Char :=
  renderKeyPart e.1 ++ ':' :: ' ' :: renderValue e.2 ++ (if last then [] else [','])

/-- The token stream of a rendered nonempty document from just after
each entry starts to the closing brace: each entry line, its newline,
and the two-space padding of the next line; the last entry is followed
by a newline and the closing brace. -/
def seqText : JSON → List Char
  | [] => ['}']
  | [e] => entryText e true ++ '\n' :: ['}']
  | e :: es => entryText e false ++ '\n' :: ' ' :: ' ' :: seqText es

/-- Concrete input: the text of the form open-brace "a": "x\"y"
close-brace, a string value with an escaped quote. -/
def inputC2 : List Char :=
  ['{', '"', 'a', '"', ':', ' ', '"', 'x', '\\', '"', 'y', '"', '}']

/-- Concrete input: a document binding a to the nested object binding b
to 1, then c to 2. -/
def inputC4a : List Char :=
  ['{', '"', 'a', '"', ':', ' ', '{', '"', 'b', '"', ':', ' ', '1', '}', ',',
   ' ', '"', 'c', '"', ':', ' ', '2', '}']

/-- Concrete input: as inputC4a but with the nested value the string
x-open-brace-y-close-brace-z, putting braces inside a string. -/
def inputC4b : List Char :=
  ['{', '"', 'a', '"', ':', ' ', '{', '"', 'b', '"', ':', ' ', '"', 'x', '{',
   'y', '}', 'z', '"', '}', ',', ' ', '"', 'c', '"', ':', ' ', '2', '}']

/-- Concrete input: a document with a trailing comma after its only
pair. -/
def inputC5 : List Char :=
  ['{', '"', 'a', '"', ':', ' ', '1', ',', '}']

/-- Concrete input: the partial literal tru as a value. -/
def inputC6tru : List Char :=
  ['{', '"', 'a', '"', ':', ' ', 't', 'r', 'u', '}']

/-- Concrete input: the partial literal nul as a value. -/
def inputC6nul : List Char :=
  ['{', '"', 'a', '"', ':', ' ', 'n', 'u', 'l', '}']

/-- Concrete input: the full literal true as a value. -/
def inputC6true : List Char :=
  ['{', '"', 'a', '"', ':', ' ', 't', 'r', 'u', 'e', '}']

/-- Concrete input: the full literal null as a value. -/
def inputC6null : List Char :=
  ['{', '"', 'a', '"', ':', ' ', 'n', 'u', 'l', 'l', '}']

/-- Concrete input: the full literal false as a value. -/
def inputC6false : List Char :=
  ['{', '"', 'a', '"', ':', ' ', 'f', 'a', 'l', 's', 'e', '}']

/-- Concrete input: the number negative forty-two as a value. -/
def inputC7neg : List Char :=
  ['{', '"', 'a', '"', ':', ' ', '-', '4', '2', '}']

/-- Concrete input: fourteen nines as a value, outside the signed
32-bit range. -/
def inputC7big : List Char :=
  ['{', '"', 'a', '"', ':', ' ', '9', '9', '9', '9', '9', '9', '9', '9', '9',
   '9', '9', '9', '9', '9', '}']

/-- Concrete input: a one-element array with a trailing comma. -/
def inputC9 : List Char :=
  ['{', '"', 'a', '"', ':', ' ', '[', '1', ',', ']', '}']

/-- Concrete input: a complete document followed by garbage and a final
closing brace. -/
def inputC10 : List Char :=
  ['{', '"', 'a', '"', ':', ' ', '1', '}', ' ', 'g', 'a', 'r', 'b', 'a', 'g',
   'e', ' ', '}']

/-- The token stream of inputC10 after its opening brace. -/
def tokensC10 : List Char := inputC10.drop 1

/-! Basic lemmas about whitespace skipping. -/

theorem skipWhitspace_cons_nonws (c : Char) (ts : List Char)
    (h : isWhitespaceChar c = false) : skipWhitspace (c :: ts) = (some c, ts) := by
  simp [skipWhitspace, h]

theorem skipWhitspace_ws_front (ws ts : List Char)
    (h : ∀ c ∈ ws, isWhitespaceChar c = true) :
    skipWhitspace (ws ++ ts) = skipWhitspace ts := by
  induction ws with
  | nil => rfl
  | cons c ws ih =>
    simp only [List.cons_append, skipWhitspace, h c (List.mem_cons_self c ws), if_true]
    exact ih (fun x hx => h x (List.mem_cons_of_mem c hx))

theorem commaLoop_ws_front (ws ts : List Char)
    (h : ∀ c ∈ ws, isWhitespaceChar c = true) :
    commaLoop (ws ++ ts) = commaLoop ts := by
  induction ws with
  | nil => rfl
  | cons c ws ih =>
    have hcw : isWhitespaceChar c = true := h c (List.mem_cons_self c ws)
    have hcb : ¬(c = '}') := by
      intro e
      rw [e] at hcw
      simp [isWhitespaceChar] at hcw
    simp only [List.cons_append, commaLoop, if_neg hcb, hcw, if_true]
    exact ih (fun x hx => h x (List.mem_cons_of_mem c hx))

theorem commaLoop_ws_brace (ws rest : List Char)
    (h : ∀ c ∈ ws, isWhitespaceChar c = true) :
    commaLoop (ws ++ '}' :: rest) = .error () := by
  rw [commaLoop_ws_front ws _ h]
  rfl

/-- C2: parsing the escaped-quote document succeeds and binds a to the
three-character string with an inner double quote; rendering that value
wraps it in double quotes with NO escaping re-applied (the amended
rendering fact, matching the source printer). -/
theorem c2_string_escape_amended :
    parseFromString inputC2 = .ok [(['a'], JSONValue.String ['x', '"', 'y'])] ∧
    renderValue (JSONValue.String ['x', '"', 'y']) = ['"', 'x', '"', 'y', '"'] := by
  refine ⟨rfl, ?_⟩
  simp [renderValue]

/-- C2 counterexample: the printer does not re-apply the quote escape,
so rendering the string with an inner quote is not the claimed escaped
text. -/
theorem c2_counterexample :
    renderValue (JSONValue.String ['x', '"', 'y']) ≠ ['"', 'x', '\\', '"', 'y', '"'] := by
  simp [renderValue]

/-- C4: both nested-object documents parse with the two top-level keys
bound correctly, including when the nested object text contains braces
inside a string value. -/
theorem c4_nested_isolation :
    parseFromString inputC4a =
      .ok [(['a'], JSONValue.Object [(['b'], JSONValue.Number 1)]), (['c'], JSONValue.Number 2)] ∧
    parseFromString inputC4b =
      .ok [(['a'], JSONValue.Object [(['b'], JSONValue.String ['x', '{', 'y', '}', 'z'])]),
           (['c'], JSONValue.Number 2)] :=
  ⟨rfl, rfl⟩

/-- C5: the trailing-comma document is a grammar error, and in general a
comma followed by any run of whitespace and then the closing brace makes
the pair loop fail. -/
theorem c5_trailing_comma :
    parseFromString inputC5 = .error () ∧
    ∀ ws rest, (∀ c ∈ ws, isWhitespaceChar c = true) →
      commaLoop (ws ++ '}' :: rest) = .error () :=
  ⟨rfl, fun ws rest h => commaLoop_ws_brace ws rest h⟩

theorem c5_trailing_comma_witness :
    (∀ c ∈ [' ', '\t'], isWhitespaceChar c = true) ∧
    commaLoop ([' ', '\t'] ++ '}' :: ['x']) = .error () :=
  ⟨by decide, c5_trailing_comma.2 [' ', '\t'] ['x'] (by decide)⟩

/-- C6: the partial literals tru and nul are grammar errors, while the
full literals true, null and false are accepted. -/
theorem c6_literal_strictness :
    parseFromString inputC6tru = .error () ∧
    parseFromString inputC6nul = .error () ∧
    parseFromString inputC6true = .ok [(['a'], JSONValue.Bool true)] ∧
    parseFromString inputC6null = .ok [(['a'], JSONValue.Null)] ∧
    parseFromString inputC6false = .ok [(['a'], JSONValue.Bool false)] :=
  ⟨rfl, rfl, rfl, rfl, rfl⟩

/-- C7: negative forty-two parses to the integer, and the fourteen-nines
number outside the signed 32-bit range is a grammar error. -/
theorem c7_numbers :
    parseFromString inputC7neg = .ok [(['a'], JSONValue.Number (-42))] ∧
    parseFromString inputC7big = .error () :=
  ⟨rfl, rfl⟩

/-- C3 counterexample: inserting a single space between the braces of
the empty document flips the parse from success to failure, refuting
unrestricted whitespace insensitivity. -/
theorem c3_counterexample :
    parseFromString ['{', '}'] = .ok [] ∧ parseFromString ['{', ' ', '}'] = .error () :=
  ⟨rfl, rfl⟩

/-- C3 amended: whitespace runs are insignificant at every boundary the
parser handles with its skipping helpers: before a key, around the
colon, before a value, and after a comma between pairs.  (They are NOT
insignificant at an element position directly before a closing brace or
bracket, as the counterexample shows.) -/
theorem c3_whitespace_amended :
    ∀ ws ts, (∀ c ∈ ws, isWhitespaceChar c = true) →
      skipWhitspace (ws ++ ts) = skipWhitspace ts ∧
      parseKey (ws ++ ts) = parseKey ts ∧
      skipColons (ws ++ ts) = skipColons ts ∧
      (∀ f, parseValue f (ws ++ ts) = parseValue f ts) ∧
      commaLoop (ws ++ ts) = commaLoop ts := by
  intro ws ts h
  refine ⟨skipWhitspace_ws_front ws ts h, ?_, ?_, ?_, commaLoop_ws_front ws ts h⟩
  · simp only [parseKey, skipWhitspace_ws_front ws ts h]
  · simp only [skipColons, skipWhitspace_ws_front ws ts h]
  · intro f
    cases f with
    | zero => rfl
    | succ f => simp only [parseValue, skipWhitspace_ws_front ws ts h]

theorem c3_whitespace_amended_witness :
    (∀ c ∈ ['\n', ' '], isWhitespaceChar c = true) ∧
    (skipWhitspace (['\n', ' '] ++ ['"']) = skipWhitspace ['"'] ∧
      parseKey (['\n', ' '] ++ ['"']) = parseKey ['"'] ∧
      skipColons (['\n', ' '] ++ ['"']) = skipColons ['"'] ∧
      (∀ f, parseValue f (['\n', ' '] ++ ['"']) = parseValue f ['"']) ∧
      commaLoop (['\n', ' '] ++ ['"']) = commaLoop ['"']) :=
  ⟨by decide, c3_whitespace_amended ['\n', ' '] ['"'] (by decide)⟩

/-- C10: when the pair just parsed is followed (after whitespace) by a
closing brace, the parse loop returns the document built so far no
matter what text follows that brace; concretely, the document followed
by garbage and a final closing brace parses to the single binding. -/
theorem c10_stops_at_first_close :
    (∀ f obj k v ts ws rest,
        getPair f ts = some (.ok ((k, v), ws ++ '}' :: rest)) →
        (∀ c ∈ ws, isWhitespaceChar c = true) →
        1 < ts.length →
        parseLoop (f + 1) obj ts = some (.ok (insertPair obj k v))) ∧
    parseFromString inputC10 = .ok [(['a'], JSONValue.Number 1)] := by
  constructor
  · intro f obj k v ts ws rest hgp hws hlen
    simp only [parseLoop, if_pos hlen, hgp]
    rw [skipWhitspace_ws_front ws _ hws, skipWhitspace_cons_nonws '}' rest (by rfl)]
    rfl
  · rfl

theorem c10_stops_at_first_close_witness :
    (getPair 10 tokensC10 =
      some (.ok ((['a'], JSONValue.Number 1),
        [] ++ '}' :: [' ', 'g', 'a', 'r', 'b', 'a', 'g', 'e', ' ', '}']))) ∧
    (∀ c ∈ ([] : List Char), isWhitespaceChar c = true) ∧
    1 < tokensC10.length ∧
    parseLoop 11 [] tokensC10 = some (.ok [(['a'], JSONValue.Number 1)]) :=
  ⟨rfl, by decide, by decide,
    c10_stops_at_first_close.1 10 [] ['a'] (JSONValue.Number 1) tokensC10 []
      [' ', 'g', 'a', 'r', 'b', 'a', 'g', 'e', ' ', '}'] rfl (by decide) (by decide)⟩

/-! Lemmas about digits and the integer round trip. -/

theorem digitCh_isNumeric (d : Nat) (h : d < 10) : isNumericChar (digitCh d) = true := by
  interval_cases d <;> rfl

theorem digitCh_sub (d : Nat) (h : d < 10) : (digitCh d).toNat - 48 = d := by
  interval_cases d <;> rfl

theorem natRepr_ne_nil (n : Nat) : natRepr n ≠ [] := by
  rw [natRepr]
  split <;> simp

theorem natRepr_all_numeric (n : Nat) : ∀ c ∈ natRepr n, isNumericChar c = true := by
  induction n using Nat.strong_induction_on with
  | _ n ih =>
    rw [natRepr]
    split
    case isTrue h =>
      intro c hc
      simp only [List.mem_singleton] at hc
      subst hc
      exact digitCh_isNumeric n h
    case isFalse h =>
      intro c hc
      rcases List.mem_append.mp hc with hc | hc
      · exact ih (n / 10) (Nat.div_lt_self (by omega) (by omega)) c hc
      · simp only [List.mem_singleton] at hc
        subst hc
        exact digitCh_isNumeric _ (Nat.mod_lt _ (by omega))

theorem parseDigitsAux_append (xs ys : List Char) (acc : Nat) :
    parseDigitsAux (xs ++ ys) acc =
      match parseDigitsAux xs acc with
      | some a => parseDigitsAux ys a
      | none => none := by
  induction xs generalizing acc with
  | nil => rfl
  | cons c cs ih =>
    simp only [List.cons_append, parseDigitsAux]
    by_cases hc : isNumericChar c = true
    · simp [hc, ih]
    · simp [hc]

theorem parseDigitsAux_natRepr (n : Nat) :
    ∀ acc, parseDigitsAux (natRepr n) acc = some (acc * 10 ^ (natRepr n).length + n) := by
  induction n using Nat.strong_induction_on with
  | _ n ih =>
    intro acc
    rw [natRepr]
    split
    case isTrue h =>
      simp [parseDigitsAux, digitCh_isNumeric n h, digitCh_sub n h]
    case isFalse h =>
      rw [parseDigitsAux_append]
      rw [ih (n / 10) (Nat.div_lt_self (by omega) (by omega)) acc]
      have hm : n % 10 < 10 := Nat.mod_lt _ (by omega)
      simp only [parseDigitsAux, digitCh_isNumeric _ hm, if_true, digitCh_sub _ hm,
        List.length_append, List.length_singleton]
      have hp : 10 ^ ((natRepr (n / 10)).length + 1) = 10 ^ (natRepr (n / 10)).length * 10 :=
        pow_succ 10 _
      have hd : 10 * (n / 10) + n % 10 = n := Nat.div_add_mod n 10
      congr 1
      rw [hp]
      ring_nf
      omega

theorem numeric_char_facts (c : Char) (h : isNumericChar c = true) :
    c ≠ '-' ∧ c ≠ '+' ∧ c ≠ '"' ∧ c ≠ 'n' ∧ c ≠ 't' ∧ c ≠ 'f' ∧ c ≠ '{' ∧ c ≠ '[' ∧
      c ≠ ']' ∧ c ≠ ',' ∧ c ≠ '}' ∧ c ≠ '\r' ∧ c ≠ '\n' ∧ isWhitespaceChar c = false := by
  refine ⟨?_, ?_, ?_, ?_, ?_, ?_, ?_, ?_, ?_, ?_, ?_, ?_, ?_, ?_⟩
  any_goals (intro e; subst e; exact absurd h (by decide))
  cases hw : isWhitespaceChar c
  · rfl
  · exfalso
    simp only [isWhitespaceChar, Bool.or_eq_true, decide_eq_true_eq] at hw
    rcases hw with (((((e | e) | e) | e) | e) | e) <;> (subst e; exact absurd h (by decide))

theorem takeWhile_all_append (l rest : List Char) (p : Char → Bool)
    (hl : ∀ c ∈ l, p c = true) (hr : ∀ c, rest.head? = some c → p c = false) :
    (l ++ rest).takeWhile p = l ∧ (l ++ rest).dropWhile p = rest := by
  induction l with
  | nil =>
    cases rest with
    | nil => exact ⟨rfl, rfl⟩
    | cons r rs =>
      have : p r = false := hr r rfl
      simp [List.takeWhile_cons, List.dropWhile_cons, this]
  | cons c l ih =>
    have hc : p c = true := hl c (List.mem_cons_self c l)
    have ihr := ih (fun x hx => hl x (List.mem_cons_of_mem c hx))
    simp [List.takeWhile_cons, List.dropWhile_cons, hc, ihr.1, ihr.2]

theorem stringBody_clean (s : List Char) (hs : ∀ c ∈ s, c ≠ '"' ∧ c ≠ '\\') :
    ∀ acc rest, stringBody (s ++ '"' :: rest) acc false = .ok (acc ++ s, rest) := by
  induction s with
  | nil =>
    intro acc rest
    simp [stringBody]
  | cons c s ih =>
    intro acc rest
    obtain ⟨h1, h2⟩ := hs c (List.mem_cons_self c s)
    simp only [List.cons_append, stringBody, Bool.false_eq_true, if_false, if_neg h1, if_neg h2]
    simpa using ih (fun x hx => hs x (List.mem_cons_of_mem c hx)) (acc ++ [c]) rest

theorem goodText_spec (s : List Char) (h : goodText s = true) :
    ∀ c ∈ s, c ≠ '"' ∧ c ≠ '\\' ∧ c ≠ '\n' := by
  intro c hc
  simp only [goodText, List.all_eq_true] at h
  have := h c hc
  simp only [Bool.not_eq_true', Bool.or_eq_false_iff, decide_eq_false_iff_not] at this
  exact ⟨this.1.1, this.1.2, this.2⟩

theorem parseI32_intRepr (n : Int) (h1 : -(2 ^ 31) ≤ n) (h2 : n ≤ 2 ^ 31 - 1) :
    parseI32 (intRepr n) = some n := by
  rw [intRepr]
  split
  case isTrue hn =>
    have hemp : (natRepr n.natAbs).isEmpty = false := by
      cases hrep : natRepr n.natAbs with
      | nil => exact absurd hrep (natRepr_ne_nil _)
      | cons c cs => rfl
    have hle : n.natAbs ≤ 2 ^ 31 := by omega
    simp only [parseI32, true_or, if_true, hemp, Bool.false_eq_true, if_false,
      parseDigitsAux_natRepr n.natAbs 0, Nat.zero_mul, Nat.zero_add, if_pos hle]
    congr 1
    omega
  case isFalse hn =>
    cases hrep : natRepr n.toNat with
    | nil => exact absurd hrep (natRepr_ne_nil _)
    | cons c cs =>
      have hnum := natRepr_all_numeric n.toNat
      rw [hrep] at hnum
      simp only [parseI32]
      have hc := hnum c (List.mem_cons_self c cs)
      have hfacts := numeric_char_facts c hc
      rw [if_neg (not_or.mpr ⟨hfacts.1, hfacts.2.1⟩)]
      rw [← hrep, parseDigitsAux_natRepr n.toNat 0]
      simp only [Nat.zero_mul, Nat.zero_add]
      have hle : n.toNat ≤ 2 ^ 31 - 1 := by omega
      rw [if_pos hle]
      congr 1
      omega

theorem head_not_numeric_cons (c : Char) (h : isNumericChar c = false) (l : List Char) :
    ∀ x, (c :: l).head? = some x → isNumericChar x = false := by
  intro x hx
  rw [List.head?_cons] at hx
  cases hx
  exact h

theorem parseNumericValue_render (n : Int) (h1 : -(2 ^ 31) ≤ n) (h2 : n ≤ 2 ^ 31 - 1)
    (c : Char) (cs rest : List Char) (hrep : intRepr n = c :: cs)
    (hcs : ∀ x ∈ cs, isNumericChar x = true)
    (hr : ∀ x, rest.head? = some x → isNumericChar x = false) :
    parseNumericValue c (cs ++ rest) = .ok (n, rest) := by
  obtain ⟨ht, hd⟩ := takeWhile_all_append cs rest (fun x => isNumericChar x) hcs hr
  simp only [parseNumericValue, ht, hd]
  rw [show c :: cs = intRepr n from hrep.symm, parseI32_intRepr n h1 h2]

theorem intRepr_structure (n : Int) :
    ∃ c cs, intRepr n = c :: cs ∧ (isNumericChar c = true ∨ c = '-') ∧
      ∀ x ∈ cs, isNumericChar x = true := by
  rw [intRepr]
  split
  · exact ⟨'-', natRepr n.natAbs, rfl, Or.inr rfl, natRepr_all_numeric _⟩
  · cases hrep : natRepr n.toNat with
    | nil => exact absurd hrep (natRepr_ne_nil _)
    | cons c cs =>
      have hnum := natRepr_all_numeric n.toNat
      rw [hrep] at hnum
      exact ⟨c, cs, rfl, Or.inl (hnum c (List.mem_cons_self c cs)),
        fun x hx => hnum x (List.mem_cons_of_mem c hx)⟩

theorem renderValue_head (v : JSONValue) (h : validRT v = true) :
    ∃ c cs, renderValue v = c :: cs ∧ c ≠ ']' ∧ c ≠ '}' := by
  cases v with
  | String s => exact ⟨'"', s ++ ['"'], by simp [renderValue], by decide, by decide⟩
  | Number n =>
    obtain ⟨c, cs, hrep, hcor, _⟩ := intRepr_structure n
    refine ⟨c, cs, by simp [renderValue, hrep], ?_, ?_⟩
    · rcases hcor with hnum | he
      · exact (numeric_char_facts c hnum).2.2.2.2.2.2.2.2.1
      · subst he; decide
    · rcases hcor with hnum | he
      · exact (numeric_char_facts c hnum).2.2.2.2.2.2.2.2.2.2.1
      · subst he; decide
  | Bool b =>
    cases b
    · exact ⟨'f', ['a', 'l', 's', 'e'], by simp [renderValue], by decide, by decide⟩
    · exact ⟨'t', ['r', 'u', 'e'], by simp [renderValue], by decide, by decide⟩
  | Null => exact ⟨'n', ['u', 'l', 'l'], by simp [renderValue], by decide, by decide⟩
  | Array vs =>
    exact ⟨'[', renderElems vs ++ [']'], by simp [renderValue], by decide, by decide⟩
  | Object obj => simp [validRT] at h

theorem renderValue_parse_all (f : Nat) :
    (∀ v rest, validRT v = true → (∀ x, rest.head? = some x → isNumericChar x = false) →
      2 * (renderValue v ++ rest).length + 4 ≤ f →
      parseValue f (renderValue v ++ rest) = some (.ok (v, rest))) ∧
    (∀ vs acc rest, validRTList vs = true →
      2 * (renderElems vs ++ ']' :: rest).length + 5 ≤ f →
      parseArrayLoop f acc (renderElems vs ++ ']' :: rest) = some (.ok (acc ++ vs, rest))) ∧
    (∀ vs acc rest, vs ≠ [] → validRTList vs = true →
      2 * (renderElems vs ++ ',' :: ']' :: rest).length + 5 ≤ f →
      parseArrayLoop f acc (renderElems vs ++ ',' :: ']' :: rest) = some (.ok (acc ++ vs, rest))) := by
  induction f with
  | zero =>
    refine ⟨?_, ?_, ?_⟩
    · intro v rest _ _ hfuel
      omega
    · intro vs acc rest _ hfuel
      omega
    · intro vs acc rest _ _ hfuel
      omega
  | succ f ih =>
    obtain ⟨ihV, ihAL, ihALC⟩ := ih
    refine ⟨?_, ?_, ?_⟩
    · -- a rendered round-trip-safe value parses back to itself
      intro v rest hval hrest hfuel
      cases v with
      | String s =>
        have hclean : ∀ c ∈ s, c ≠ '"' ∧ c ≠ '\\' := by
          intro c hc
          have := goodText_spec s (by simpa [validRT] using hval) c hc
          exact ⟨this.1, this.2.1⟩
        have hsimp : renderValue (JSONValue.String s) ++ rest = '"' :: (s ++ '"' :: rest) := by
          simp [renderValue]
        rw [hsimp]
        simp only [parseValue]
        rw [skipWhitspace_cons_nonws '"' _ (by rfl)]
        simp [stringBody_clean s hclean [] rest]
      | Number n =>
        obtain ⟨c, cs, hrep, hcor, hcs⟩ := intRepr_structure n
        have hrange : -(2 ^ 31) ≤ n ∧ n ≤ 2 ^ 31 - 1 := by
          simpa [validRT, Bool.and_eq_true, decide_eq_true_eq] using hval
        have hcne : c ≠ '"' ∧ c ≠ 'n' ∧ c ≠ 't' ∧ c ≠ 'f' ∧ c ≠ '{' ∧ c ≠ '[' ∧
            isWhitespaceChar c = false := by
          rcases hcor with hnum | he
          · obtain ⟨hm, hp, hq, hn, ht, hf, hob, hosb, hcsb, hcm, hcb, hcr, hnl, hws⟩ :=
              numeric_char_facts c hnum
            exact ⟨hq, hn, ht, hf, hob, hosb, hws⟩
          · subst he
            exact ⟨by decide, by decide, by decide, by decide, by decide, by decide, by rfl⟩
        have hdisp : (isNumericChar c || c = '-') = true := by
          rcases hcor with hnum | he
          · simp [hnum]
          · subst he
            simp
        have hsimp : renderValue (JSONValue.Number n) ++ rest = c :: (cs ++ rest) := by
          simp [renderValue, hrep]
        rw [hsimp]
        simp only [parseValue]
        rw [skipWhitspace_cons_nonws c _ hcne.2.2.2.2.2.2]
        simp only [if_neg hcne.1, if_neg hcne.2.1, if_neg hcne.2.2.1, if_neg hcne.2.2.2.1,
          if_neg hcne.2.2.2.2.1, if_neg hcne.2.2.2.2.2.1, hdisp, if_true]
        rw [parseNumericValue_render n hrange.1 hrange.2 c cs rest hrep hcs hrest]
      | Bool b =>
        cases b
        · have hsimp : renderValue (JSONValue.Bool false) ++ rest =
              'f' :: 'a' :: 'l' :: 's' :: 'e' :: rest := by
            simp [renderValue]
          rw [hsimp]
          rfl
        · have hsimp : renderValue (JSONValue.Bool true) ++ rest =
              't' :: 'r' :: 'u' :: 'e' :: rest := by
            simp [renderValue]
          rw [hsimp]
          rfl
      | Null =>
        have hsimp : renderValue JSONValue.Null ++ rest = 'n' :: 'u' :: 'l' :: 'l' :: rest := by
          simp [renderValue]
        rw [hsimp]
        rfl
      | Array vs =>
        have hvs : validRTList vs = true := by simpa [validRT] using hval
        have hsimp : renderValue (JSONValue.Array vs) ++ rest =
            '[' :: (renderElems vs ++ ']' :: rest) := by
          simp [renderValue]
        rw [hsimp] at hfuel ⊢
        have hbound : 2 * (renderElems vs ++ ']' :: rest).length + 5 ≤ f := by
          simp only [List.length_cons] at hfuel
          omega
        simp only [parseValue]
        rw [skipWhitspace_cons_nonws '[' _ (by rfl)]
        simp [ihAL vs [] rest hvs hbound]
      | Object obj => simp [validRT] at hval
    · -- a rendered element list closed by a bracket parses back
      intro vs acc rest hval hfuel
      match vs with
      | [] =>
        simp only [renderElems, List.nil_append, List.append_nil]
        rfl
      | [v] =>
        have hv : validRT v = true := by
          simpa [validRTList, Bool.and_eq_true] using hval
        obtain ⟨c, cs, hrep, hcrb, _⟩ := renderValue_head v hv
        have hin : renderElems [v] ++ ']' :: rest = c :: (cs ++ ']' :: rest) := by
          simp [renderElems, hrep]
        rw [hin] at hfuel ⊢
        have hlv : (renderValue v).length = cs.length + 1 := by
          rw [hrep]
          simp
        have hbound : 2 * (renderValue v ++ ']' :: rest).length + 4 ≤ f := by
          simp only [List.length_cons, List.length_append, hlv] at hfuel ⊢
          omega
        have hback : c :: (cs ++ ']' :: rest) = renderValue v ++ ']' :: rest := by
          simp [hrep]
        simp only [parseArrayLoop, if_neg hcrb]
        rw [hback, ihV v (']' :: rest) hv (head_not_numeric_cons ']' (by decide) rest) hbound]
        simp [skipWhitspace_cons_nonws ']' rest (by rfl)]
      | v :: w :: ws =>
        have hval' : validRT v = true ∧ validRTList (w :: ws) = true := by
          simpa [validRTList, Bool.and_eq_true] using hval
        obtain ⟨c, cs, hrep, hcrb, _⟩ := renderValue_head v hval'.1
        have hin : renderElems (v :: w :: ws) ++ ']' :: rest =
            c :: (cs ++ ',' :: (renderElems (w :: ws) ++ ']' :: rest)) := by
          simp [renderElems, hrep]
        rw [hin] at hfuel ⊢
        have hlv : (renderValue v).length = cs.length + 1 := by
          rw [hrep]
          simp
        have hbound1 : 2 * (renderValue v ++ ',' :: (renderElems (w :: ws) ++ ']' :: rest)).length
            + 4 ≤ f := by
          simp only [List.length_cons, List.length_append, hlv] at hfuel ⊢
          omega
        have hbound2 : 2 * (renderElems (w :: ws) ++ ']' :: rest).length + 5 ≤ f := by
          simp only [List.length_cons, List.length_append, hlv] at hfuel ⊢
          omega
        have hback : c :: (cs ++ ',' :: (renderElems (w :: ws) ++ ']' :: rest)) =
            renderValue v ++ ',' :: (renderElems (w :: ws) ++ ']' :: rest) := by
          simp [hrep]
        simp only [parseArrayLoop, if_neg hcrb]
        rw [hback, ihV v _ hval'.1 (head_not_numeric_cons ',' (by decide) _) hbound1]
        simp only [skipWhitspace_cons_nonws ',' _ (by rfl)]
        rw [ihAL (w :: ws) (acc ++ [v]) rest hval'.2 hbound2]
        simp
    · -- a rendered nonempty element list with a trailing comma parses back
      intro vs acc rest hne hval hfuel
      match vs with
      | [v] =>
        have hv : validRT v = true := by
          simpa [validRTList, Bool.and_eq_true] using hval
        obtain ⟨c, cs, hrep, hcrb, _⟩ := renderValue_head v hv
        have hin : renderElems [v] ++ ',' :: ']' :: rest = c :: (cs ++ ',' :: ']' :: rest) := by
          simp [renderElems, hrep]
        rw [hin] at hfuel ⊢
        have hlv : (renderValue v).length = cs.length + 1 := by
          rw [hrep]
          simp
        have hbound : 2 * (renderValue v ++ ',' :: ']' :: rest).length + 4 ≤ f := by
          simp only [List.length_cons, List.length_append, hlv] at hfuel ⊢
          omega
        have hback : c :: (cs ++ ',' :: ']' :: rest) = renderValue v ++ ',' :: ']' :: rest := by
          simp [hrep]
        have hf1 : 1 ≤ f := by
          simp only [List.length_cons, List.length_append] at hfuel
          omega
        obtain ⟨g, rfl⟩ : ∃ g, f = g + 1 := ⟨f - 1, by omega⟩
        simp only [parseArrayLoop, if_neg hcrb]
        rw [hback, ihV v _ hv (head_not_numeric_cons ',' (by decide) _) hbound]
        simp [skipWhitspace_cons_nonws ',' _ (by rfl), parseArrayLoop]
      | v :: w :: ws =>
        have hval' : validRT v = true ∧ validRTList (w :: ws) = true := by
          simpa [validRTList, Bool.and_eq_true] using hval
        obtain ⟨c, cs, hrep, hcrb, _⟩ := renderValue_head v hval'.1
        have hin : renderElems (v :: w :: ws) ++ ',' :: ']' :: rest =
            c :: (cs ++ ',' :: (renderElems (w :: ws) ++ ',' :: ']' :: rest)) := by
          simp [renderElems, hrep]
        rw [hin] at hfuel ⊢
        have hlv : (renderValue v).length = cs.length + 1 := by
          rw [hrep]
          simp
        have hbound1 : 2 * (renderValue v ++
            ',' :: (renderElems (w :: ws) ++ ',' :: ']' :: rest)).length + 4 ≤ f := by
          simp only [List.length_cons, List.length_append, hlv] at hfuel ⊢
          omega
        have hbound2 : 2 * (renderElems (w :: ws) ++ ',' :: ']' :: rest).length + 5 ≤ f := by
          simp only [List.length_cons, List.length_append, hlv] at hfuel ⊢
          omega
        have hback : c :: (cs ++ ',' :: (renderElems (w :: ws) ++ ',' :: ']' :: rest)) =
            renderValue v ++ ',' :: (renderElems (w :: ws) ++ ',' :: ']' :: rest) := by
          simp [hrep]
        simp only [parseArrayLoop, if_neg hcrb]
        rw [hback, ihV v _ hval'.1 (head_not_numeric_cons ',' (by decide) _) hbound1]
        simp only [skipWhitspace_cons_nonws ',' _ (by rfl)]
        rw [ihALC (w :: ws) (acc ++ [v]) rest (by simp) hval'.2 hbound2]
        simp

/-- C9: appending a comma after the last element of any well-formed
(rendered, round-trip-safe) array content still parses to the same
array, in contrast to documents where the trailing comma is an error;
concretely the one-element array with trailing comma parses. -/
theorem c9_array_trailing_comma :
    (∀ f vs rest, vs ≠ [] → validRTList vs = true →
        2 * (renderElems vs ++ ',' :: ']' :: rest).length + 5 ≤ f →
        parseArrayLoop f [] (renderElems vs ++ ']' :: rest) = some (.ok (vs, rest)) ∧
        parseArrayLoop f [] (renderElems vs ++ ',' :: ']' :: rest) = some (.ok (vs, rest))) ∧
    parseFromString inputC9 = .ok [(['a'], JSONValue.Array [JSONValue.Number 1])] ∧
    parseFromString inputC5 = .error () := by
  refine ⟨?_, rfl, rfl⟩
  intro f vs rest hne hval hfuel
  have h1 := (renderValue_parse_all f).2.1 vs [] rest hval
    (by simp only [List.length_append, List.length_cons] at hfuel ⊢; omega)
  have h2 := (renderValue_parse_all f).2.2 vs [] rest hne hval hfuel
  constructor
  · simpa using h1
  · simpa using h2

theorem c9_array_trailing_comma_witness :
    ([JSONValue.Null] ≠ ([] : List JSONValue)) ∧
    validRTList [JSONValue.Null] = true ∧
    2 * (renderElems [JSONValue.Null] ++ ',' :: ']' :: ([] : List Char)).length + 5 ≤ 30 ∧
    (parseArrayLoop 30 [] (renderElems [JSONValue.Null] ++ ']' :: ([] : List Char)) =
        some (.ok ([JSONValue.Null], [])) ∧
      parseArrayLoop 30 [] (renderElems [JSONValue.Null] ++ ',' :: ']' :: ([] : List Char)) =
        some (.ok ([JSONValue.Null], []))) := by
  have hne : [JSONValue.Null] ≠ ([] : List JSONValue) := by simp
  have hval : validRTList [JSONValue.Null] = true := by simp [validRTList, validRT]
  have hb : 2 * (renderElems [JSONValue.Null] ++ ',' :: ']' :: ([] : List Char)).length + 5
      ≤ 30 := by
    simp [renderElems, renderValue]
  exact ⟨hne, hval, hb, c9_array_trailing_comma.1 30 [JSONValue.Null] [] hne hval hb⟩

/-! Lemmas about rendered document lines. -/

theorem rustLinesNoCR_append (l rest : List Char) (h : '\n' ∉ l) :
    rustLinesNoCR (l ++ '\n' :: rest) = l :: rustLinesNoCR rest := by
  induction l with
  | nil => simp [rustLinesNoCR]
  | cons c l ih =>
    have hc : ¬(c = '\n') := by
      intro e
      exact h (e ▸ List.mem_cons_self c l)
    have ihr := ih (fun hx => h (List.mem_cons_of_mem c hx))
    simp only [List.cons_append, rustLinesNoCR, if_neg hc, List.append_eq, ihr]

theorem stripCR_of_last_ne (l : List Char) (h : l.getLast? ≠ some '\r') : stripCR l = l := by
  simp [stripCR, h]

theorem scalarOK_validRT (v : JSONValue) (h : scalarOK v = true) : validRT v = true := by
  cases v <;> simp_all [scalarOK, validRT]

theorem natRepr_concat (n : Nat) : ∃ l d, d < 10 ∧ natRepr n = l ++ [digitCh d] := by
  rw [natRepr]
  split
  case isTrue h => exact ⟨[], n, h, rfl⟩
  case isFalse h => exact ⟨natRepr (n / 10), n % 10, Nat.mod_lt _ (by omega), rfl⟩

theorem renderValue_scalar_last (v : JSONValue) (h : scalarOK v = true) :
    ∃ l c, renderValue v = l ++ [c] ∧ c ≠ '\r' := by
  cases v with
  | String s => exact ⟨'"' :: s, '"', by simp [renderValue], by decide⟩
  | Number n =>
    rw [show renderValue (JSONValue.Number n) = intRepr n from by simp [renderValue], intRepr]
    split
    · obtain ⟨l, d, hd, hrep⟩ := natRepr_concat n.natAbs
      refine ⟨'-' :: l, digitCh d, by simp [hrep], ?_⟩
      intro e
      have := digitCh_isNumeric d hd
      rw [e] at this
      exact absurd this (by decide)
    · obtain ⟨l, d, hd, hrep⟩ := natRepr_concat n.toNat
      refine ⟨l, digitCh d, hrep, ?_⟩
      intro e
      have := digitCh_isNumeric d hd
      rw [e] at this
      exact absurd this (by decide)
  | Bool b =>
    cases b
    · exact ⟨['f', 'a', 'l', 's'], 'e', by simp [renderValue], by decide⟩
    · exact ⟨['t', 'r', 'u'], 'e', by simp [renderValue], by decide⟩
  | Null => exact ⟨['n', 'u', 'l'], 'l', by simp [renderValue], by decide⟩
  | Array vs => simp [scalarOK] at h
  | Object obj => simp [scalarOK] at h

theorem renderValue_scalar_chars (v : JSONValue) (h : scalarOK v = true) :
    ∀ c ∈ renderValue v, c ≠ '\n' := by
  cases v with
  | String s =>
    intro c hc
    have hmem : c = '"' ∨ c ∈ s := by
      rw [show renderValue (JSONValue.String s) = '"' :: s ++ ['"'] from by simp [renderValue]]
        at hc
      simp at hc
      tauto
    rcases hmem with e | hm
    · subst e; decide
    · exact (goodText_spec s (by simpa [scalarOK] using h) c hm).2.2
  | Number n =>
    intro c hc
    rw [show renderValue (JSONValue.Number n) = intRepr n from by simp [renderValue],
      intRepr] at hc
    have hnum : isNumericChar c = true ∨ c = '-' := by
      split at hc
      · rcases List.mem_cons.mp hc with e | hm
        · exact Or.inr e
        · exact Or.inl (natRepr_all_numeric _ c hm)
      · exact Or.inl (natRepr_all_numeric _ c hc)
    rcases hnum with hnum | e
    · exact (numeric_char_facts c hnum).2.2.2.2.2.2.2.2.2.2.2.2.1
    · subst e; decide
  | Bool b =>
    cases b with
    | false =>
      intro c hc
      rw [show renderValue (JSONValue.Bool false) = ['f', 'a', 'l', 's', 'e'] from
        by simp [renderValue]] at hc
      fin_cases hc <;> decide
    | true =>
      intro c hc
      rw [show renderValue (JSONValue.Bool true) = ['t', 'r', 'u', 'e'] from
        by simp [renderValue]] at hc
      fin_cases hc <;> decide
  | Null =>
    intro c hc
    rw [show renderValue JSONValue.Null = ['n', 'u', 'l', 'l'] from
      by simp [renderValue]] at hc
    fin_cases hc <;> decide
  | Array vs => simp [scalarOK] at h
  | Object obj => simp [scalarOK] at h

theorem entryText_last_ne_cr (e : List Char × JSONValue) (hval : validEntry e = true)
    (last : Bool) : (entryText e last).getLast? ≠ some '\r' := by
  obtain ⟨hk, hv⟩ : goodKey e.1 = true ∧ scalarOK e.2 = true := by
    simpa [validEntry, Bool.and_eq_true] using hval
  cases last with
  | false =>
    rw [show entryText e false = (renderKeyPart e.1 ++ ':' :: ' ' :: renderValue e.2) ++ [',']
      from by simp [entryText]]
    rw [List.getLast?_concat]
    simp
  | true =>
    obtain ⟨l, c, hrep, hcr⟩ := renderValue_scalar_last e.2 hv
    rw [show entryText e true = (renderKeyPart e.1 ++ ':' :: ' ' :: l) ++ [c]
      from by simp [entryText, hrep]]
    rw [List.getLast?_concat]
    simp [hcr]

theorem entryText_no_newline (e : List Char × JSONValue) (hval : validEntry e = true)
    (last : Bool) : '\n' ∉ entryText e last := by
  obtain ⟨hk, hv⟩ : goodKey e.1 = true ∧ scalarOK e.2 = true := by
    simpa [validEntry, Bool.and_eq_true] using hval
  obtain ⟨hsp, hgt⟩ : e.1.contains ' ' = true ∧ goodText e.1 = true := by
    simpa [goodKey, Bool.and_eq_true] using hk
  have hkq : renderKeyPart e.1 = '"' :: e.1 ++ ['"'] := by
    unfold renderKeyPart
    rw [if_pos hsp]
  have hbody : '\n' ∉ renderKeyPart e.1 ++ ':' :: ' ' :: renderValue e.2 := by
    intro hm
    rcases List.mem_append.mp hm with hA | hB
    · rw [hkq] at hA
      rcases List.mem_append.mp hA with hA1 | hA2
      · rcases List.mem_cons.mp hA1 with e1 | hA1
        · exact absurd e1 (by decide)
        · exact (goodText_spec e.1 hgt '\n' hA1).2.2 rfl
      · rcases List.mem_singleton.mp hA2 with e1
        exact absurd e1 (by decide)
    · rcases List.mem_cons.mp hB with e1 | hB
      · exact absurd e1 (by decide)
      · rcases List.mem_cons.mp hB with e1 | hB
        · exact absurd e1 (by decide)
        · exact renderValue_scalar_chars e.2 hv '\n' hB rfl
  intro hmem
  cases last with
  | false =>
    rw [show entryText e false = (renderKeyPart e.1 ++ ':' :: ' ' :: renderValue e.2) ++ [',']
      from by simp [entryText]] at hmem
    rcases List.mem_append.mp hmem with hm | hm
    · exact hbody hm
    · rcases List.mem_singleton.mp hm with e1
      exact absurd e1 (by decide)
  | true =>
    rw [show entryText e true = renderKeyPart e.1 ++ ':' :: ' ' :: renderValue e.2
      from by simp [entryText]] at hmem
    exact hbody hmem

theorem rustLinesNoCR_nil : rustLinesNoCR [] = [] := rfl

theorem padded_seq (es : JSON) :
    es ≠ [] → validEntries es = true →
    getPaddedString (renderEntriesStr es) ++ ['}'] = ' ' :: ' ' :: seqText es := by
  induction es with
  | nil =>
    intro h
    exact absurd rfl h
  | cons e es' ih =>
    intro _ hval
    obtain ⟨hke, hve⟩ : validEntry e = true ∧ validEntries es' = true := by
      simp only [validEntries, List.all_cons, Bool.and_eq_true] at hval
      exact hval
    have hnl := entryText_no_newline e hke
    have hlast := entryText_last_ne_cr e hke
    cases es' with
    | nil =>
      have hres : renderEntriesStr [e] = entryText e true ++ '\n' :: [] := by
        simp [renderEntriesStr, entryText]
      rw [hres, getPaddedString, rustLinesNoCR_append _ [] (hnl true)]
      simp only [rustLinesNoCR_nil, List.map_cons, List.map_nil, List.flatten_cons,
        List.flatten_nil, List.append_nil]
      rw [stripCR_of_last_ne _ (hlast true)]
      simp [seqText, List.append_assoc]
    | cons w ws' =>
      have hres : renderEntriesStr (e :: w :: ws') =
          entryText e false ++ '\n' :: renderEntriesStr (w :: ws') := by
        simp [renderEntriesStr, entryText]
      rw [hres, getPaddedString, rustLinesNoCR_append _ _ (hnl false)]
      simp only [List.map_cons, List.flatten_cons, List.nil_append]
      rw [stripCR_of_last_ne _ (hlast false)]
      have hrec := ih (List.cons_ne_nil _ _) hve
      rw [getPaddedString] at hrec
      simp only [List.append_assoc] at hrec ⊢
      rw [hrec]
      simp [seqText]

theorem seqText_head (es : JSON) (hne : es ≠ []) (hval : validEntries es = true) :
    ∃ tl, seqText es = '"' :: tl := by
  cases es with
  | nil => exact absurd rfl hne
  | cons e es' =>
    obtain ⟨hke, _⟩ : validEntry e = true ∧ validEntries es' = true := by
      simp only [validEntries, List.all_cons, Bool.and_eq_true] at hval
      exact hval
    have hsp : e.1.contains ' ' = true := by
      simp only [validEntry, goodKey, Bool.and_eq_true] at hke
      exact hke.1.1
    have hkq : renderKeyPart e.1 = '"' :: e.1 ++ ['"'] := by
      unfold renderKeyPart
      rw [if_pos hsp]
    cases es' with
    | nil =>
      refine ⟨e.1 ++ '"' :: ':' :: ' ' :: (renderValue e.2 ++ '\n' :: ['}']), ?_⟩
      simp [seqText, entryText, hkq]
    | cons w ws' =>
      refine ⟨e.1 ++ '"' :: ':' :: ' ' ::
        (renderValue e.2 ++ ',' :: '\n' :: ' ' :: ' ' :: seqText (w :: ws')), ?_⟩
      simp [seqText, entryText, hkq]

theorem parseValue_ws_front (ws ts : List Char) (h : ∀ c ∈ ws, isWhitespaceChar c = true) :
    ∀ f, parseValue f (ws ++ ts) = parseValue f ts := by
  intro f
  cases f with
  | zero => rfl
  | succ f => simp only [parseValue, skipWhitspace_ws_front ws ts h]

theorem getPair_render (f : Nat) (k : List Char) (v : JSONValue) (ws rest : List Char)
    (hk : goodKey k = true) (hv : validRT v = true)
    (hws : ∀ c ∈ ws, isWhitespaceChar c = true)
    (hrest : ∀ x, rest.head? = some x → isNumericChar x = false)
    (hfuel : 2 * (renderValue v ++ rest).length + 4 ≤ f) :
    getPair (f + 1) (ws ++ '"' :: (k ++ '"' :: ':' :: ' ' :: (renderValue v ++ rest))) =
      some (.ok ((k, v), rest)) := by
  obtain ⟨hsp, hgt⟩ : k.contains ' ' = true ∧ goodText k = true := by
    simpa [goodKey, Bool.and_eq_true] using hk
  have hclean : ∀ c ∈ k, c ≠ '"' ∧ c ≠ '\\' := by
    intro c hc
    have := goodText_spec k hgt c hc
    exact ⟨this.1, this.2.1⟩
  have hkey : parseKey (ws ++ '"' :: (k ++ '"' :: ':' :: ' ' :: (renderValue v ++ rest))) =
      .ok (k, ':' :: ' ' :: (renderValue v ++ rest)) := by
    simp only [parseKey, skipWhitspace_ws_front ws _ hws]
    rw [skipWhitspace_cons_nonws '"' _ (by rfl)]
    simp [stringBody_clean k hclean [] _]
  have hcol : skipColons (':' :: ' ' :: (renderValue v ++ rest)) =
      .ok (' ' :: (renderValue v ++ rest)) := rfl
  have hval2 : parseValue f (' ' :: (renderValue v ++ rest)) = some (.ok (v, rest)) := by
    rw [show (' ' :: (renderValue v ++ rest)) = [' '] ++ (renderValue v ++ rest) from rfl]
    rw [parseValue_ws_front [' '] _ (by decide) f]
    exact (renderValue_parse_all f).1 v rest hv hrest hfuel
  simp only [getPair, hkey, hcol, hval2]

theorem parseLoop_render (es : JSON) :
    ∀ obj ws f, es ≠ [] → validEntries es = true →
      (∀ c ∈ ws, isWhitespaceChar c = true) →
      2 * (ws ++ seqText es).length + 3 ≤ f →
      parseLoop f obj (ws ++ seqText es) = some (.ok (insertAll obj es)) := by
  induction es with
  | nil =>
    intro obj ws f hne
    exact absurd rfl hne
  | cons e es' ih =>
    intro obj ws f _ hval hws hfuel
    obtain ⟨hke, hve⟩ : validEntry e = true ∧ validEntries es' = true := by
      simp only [validEntries, List.all_cons, Bool.and_eq_true] at hval
      exact hval
    obtain ⟨k, v⟩ := e
    obtain ⟨hk, hv⟩ : goodKey k = true ∧ scalarOK v = true := by
      simpa [validEntry, Bool.and_eq_true] using hke
    have hvrt : validRT v = true := scalarOK_validRT v hv
    have hsp : k.contains ' ' = true := by
      simp only [goodKey, Bool.and_eq_true] at hk
      exact hk.1
    have hkq : renderKeyPart k = '"' :: k ++ ['"'] := by
      unfold renderKeyPart
      rw [if_pos hsp]
    obtain ⟨g, rfl⟩ : ∃ g, f = g + 2 := ⟨f - 2, by omega⟩
    cases es' with
    | nil =>
      have hshape : ws ++ seqText [(k, v)] =
          ws ++ '"' :: (k ++ '"' :: ':' :: ' ' :: (renderValue v ++ ('\n' :: ['}']))) := by
        simp [seqText, entryText, hkq]
      rw [hshape] at hfuel ⊢
      have hlen : 1 < (ws ++ '"' :: (k ++ '"' :: ':' :: ' ' ::
          (renderValue v ++ ('\n' :: ['}'])))).length := by
        simp only [List.length_append, List.length_cons]
        omega
      have hbound : 2 * (renderValue v ++ ('\n' :: ['}'])).length + 4 ≤ g := by
        simp only [List.length_append, List.length_cons] at hfuel ⊢
        omega
      simp only [parseLoop, if_pos hlen,
        getPair_render g k v ws ('\n' :: ['}']) hk hvrt hws
          (head_not_numeric_cons '\n' (by decide) _) hbound,
        show skipWhitspace ('\n' :: ['}']) = (some '}', []) from rfl]
      simp [insertAll]
    | cons w ws' =>
      have hshape : ws ++ seqText ((k, v) :: w :: ws') =
          ws ++ '"' :: (k ++ '"' :: ':' :: ' ' :: (renderValue v ++
            (',' :: '\n' :: ' ' :: ' ' :: seqText (w :: ws')))) := by
        simp [seqText, entryText, hkq]
      rw [hshape] at hfuel ⊢
      have hlen : 1 < (ws ++ '"' :: (k ++ '"' :: ':' :: ' ' :: (renderValue v ++
          (',' :: '\n' :: ' ' :: ' ' :: seqText (w :: ws'))))).length := by
        simp only [List.length_append, List.length_cons]
        omega
      have hbound : 2 * (renderValue v ++ (',' :: '\n' :: ' ' :: ' ' ::
          seqText (w :: ws'))).length + 4 ≤ g := by
        simp only [List.length_append, List.length_cons] at hfuel ⊢
        omega
      obtain ⟨tl, htl⟩ := seqText_head (w :: ws') (List.cons_ne_nil _ _) hve
      have hcomma : commaLoop ('\n' :: ' ' :: ' ' :: seqText (w :: ws')) =
          .ok (seqText (w :: ws')) := by
        rw [show ('\n' :: ' ' :: ' ' :: seqText (w :: ws')) =
          ['\n', ' ', ' '] ++ seqText (w :: ws') from rfl]
        rw [commaLoop_ws_front ['\n', ' ', ' '] _ (by decide), htl]
        rfl
      have hrec := ih (insertPair obj k v) [] (g + 1) (List.cons_ne_nil _ _) hve
        (by intro c hc; exact absurd hc (List.not_mem_nil c))
        (by simp only [List.length_append, List.length_cons, List.nil_append] at hfuel ⊢; omega)
      simp only [List.nil_append] at hrec
      simp only [parseLoop, if_pos hlen,
        getPair_render g k v ws _ hk hvrt hws (head_not_numeric_cons ',' (by decide) _) hbound,
        skipWhitspace_cons_nonws ',' _ (by rfl), hcomma, insertAll]
      exact hrec

theorem getLast?_concat_brace (l : List Char) : (l ++ ['}']).getLast? = some '}' := by
  simp

theorem rustTrim_brace (mid : List Char) :
    rustTrim (('{' :: mid) ++ ['}']) = ('{' :: mid) ++ ['}'] := by
  have h1 : (('{' :: mid) ++ ['}']).dropWhile (fun c => isWhitespaceChar c) =
      ('{' :: mid) ++ ['}'] := by
    rw [List.cons_append, List.dropWhile_cons]
    simp [isWhitespaceChar]
  have h2 : (('{' :: mid) ++ ['}']).reverse = '}' :: (mid.reverse ++ ['{']) := by
    simp [List.reverse_append]
  have h3 : ('}' :: (mid.reverse ++ ['{'])).dropWhile (fun c => isWhitespaceChar c) =
      '}' :: (mid.reverse ++ ['{']) := by
    rw [List.dropWhile_cons]
    simp [isWhitespaceChar]
  unfold rustTrim
  rw [h1, h2, h3, ← h2, List.reverse_reverse]

theorem insertAll_fresh (es : JSON) :
    ∀ obj, keysDistinct es = true →
      (∀ p ∈ es, obj.any (fun q => q.1 == p.1) = false) →
      insertAll obj es = obj ++ es := by
  induction es with
  | nil =>
    intro obj _ _
    simp [insertAll]
  | cons e es' ih =>
    intro obj hdist hfresh
    obtain ⟨k, v⟩ := e
    have hd : es'.any (fun p => p.1 == k) = false ∧ keysDistinct es' = true := by
      simp only [keysDistinct, Bool.and_eq_true, Bool.not_eq_true'] at hdist
      exact hdist
    have hobj : obj.any (fun q => q.1 == k) = false :=
      hfresh (k, v) (List.mem_cons_self _ _)
    have hstep : insertPair obj k v = obj ++ [(k, v)] := by
      unfold insertPair
      rw [hobj]
      simp
    rw [show insertAll obj ((k, v) :: es') = insertAll (insertPair obj k v) es' from rfl,
      hstep, ih (obj ++ [(k, v)]) hd.2 ?_]
    · simp
    · intro p hp
      have hfp : obj.any (fun q => q.1 == p.1) = false := hfresh p (List.mem_cons_of_mem _ hp)
      have hkp : ((k, v).1 == p.1) = false := by
        have h1 : (p.1 == k) = false := by
          have := hd.1
          rw [List.any_eq_false] at this
          simpa using this p hp
        simp only [beq_eq_false_iff_ne] at h1 ⊢
        exact fun e => h1 e.symm
      rw [List.any_append]
      simp [hfp, hkp]

/-- C1 counterexample: rendering the document binding the bare key a to
null prints the key without quotes, and parsing that rendered text fails
(the parser requires every key to be quoted), refuting the unrestricted
round-trip claim. -/
theorem c1_counterexample :
    parseFromString (renderJSON [(['a'], JSONValue.Null)]) = .error () := by
  rw [show renderJSON [(['a'], JSONValue.Null)] =
      ['{', '\n', ' ', ' ', 'a', ':', ' ', 'n', 'u', 'l', 'l', '\n', '}'] from by
    simp only [renderJSON, renderEntriesStr, renderKeyPart, renderValue]
    decide]
  rfl

/-- C1 amended: for every document whose keys all contain a space (so
the printer re-quotes them) and contain no quote, backslash or newline,
and whose values are scalars (strings likewise clean, numbers within the
signed 32-bit range, booleans, null), parsing the rendered text succeeds
and reproduces exactly the same key-to-value mapping. -/
theorem c1_roundtrip_amended (es : JSON) (hval : validEntries es = true)
    (hdist : keysDistinct es = true) :
    parseFromString (renderJSON es) = .ok es := by
  cases es with
  | nil =>
    rw [show renderJSON [] = ['{', '}'] from by simp [renderJSON]]
    rfl
  | cons e es' =>
    have hps := padded_seq (e :: es') (List.cons_ne_nil _ _) hval
    have hplen : (getPaddedString (renderEntriesStr (e :: es'))).length + 1 =
        (seqText (e :: es')).length + 2 := by
      have := congrArg List.length hps
      simpa using this
    have hrj : renderJSON (e :: es') =
        '{' :: '\n' :: (getPaddedString (renderEntriesStr (e :: es')) ++ ['}']) := by
      simp [renderJSON]
    rw [hrj]
    simp only [parseFromString]
    have htrim : rustTrim ('{' :: '\n' ::
        (getPaddedString (renderEntriesStr (e :: es')) ++ ['}'])) =
        '{' :: '\n' :: (getPaddedString (renderEntriesStr (e :: es')) ++ ['}']) := by
      have := rustTrim_brace ('\n' :: getPaddedString (renderEntriesStr (e :: es')))
      simpa [List.cons_append, List.append_assoc] using this
    rw [htrim]
    simp only [JSONparse]
    have hcond : ('{' :: '\n' ::
        (getPaddedString (renderEntriesStr (e :: es')) ++ ['}'])).head? = some '{' ∧
        ('{' :: '\n' ::
          (getPaddedString (renderEntriesStr (e :: es')) ++ ['}'])).getLast? = some '}' := by
      refine ⟨rfl, ?_⟩
      exact getLast?_concat_brace ('{' :: '\n' :: getPaddedString (renderEntriesStr (e :: es')))
    have hdoc : parseDoc
        (2 * ('{' :: '\n' ::
          (getPaddedString (renderEntriesStr (e :: es')) ++ ['}'])).length + 2)
        ('{' :: '\n' :: (getPaddedString (renderEntriesStr (e :: es')) ++ ['}'])) =
        some (.ok (e :: es')) := by
      rw [show 2 * ('{' :: '\n' ::
          (getPaddedString (renderEntriesStr (e :: es')) ++ ['}'])).length + 2 =
        (2 * ('{' :: '\n' ::
          (getPaddedString (renderEntriesStr (e :: es')) ++ ['}'])).length + 1) + 1 from rfl]
      simp only [parseDoc, if_pos hcond]
      simp only [List.drop_succ_cons, List.drop_zero]
      rw [hps]
      rw [show ('\n' :: (' ' :: ' ' :: seqText (e :: es'))) =
        ['\n', ' ', ' '] ++ seqText (e :: es') from rfl]
      have hbound : 2 * ((['\n', ' ', ' '] : List Char) ++ seqText (e :: es')).length + 3 ≤
          2 * ('{' :: (['\n', ' ', ' '] ++ seqText (e :: es'))).length + 1 := by
        simp only [List.length_append, List.length_cons]
        omega
      rw [parseLoop_render (e :: es') [] ['\n', ' ', ' '] _ (List.cons_ne_nil _ _) hval
        (by decide) hbound]
      rw [insertAll_fresh (e :: es') [] hdist (fun p _ => rfl)]
      simp
    rw [hdoc]

theorem c1_roundtrip_amended_witness :
    validEntries [(['a', ' ', 'b'], JSONValue.Null)] = true ∧
    keysDistinct [(['a', ' ', 'b'], JSONValue.Null)] = true ∧
    parseFromString (renderJSON [(['a', ' ', 'b'], JSONValue.Null)]) =
      .ok [(['a', ' ', 'b'], JSONValue.Null)] :=
  ⟨by decide, by decide,
    c1_roundtrip_amended [(['a', ' ', 'b'], JSONValue.Null)] (by decide) (by decide)⟩

/-! Consumption lemmas: every helper that returns a continuation stream
has consumed part of its input, mirroring the cursor always advancing. -/

theorem skipWhitspace_consume (ts : List Char) (c : Char) (r : List Char) :
    skipWhitspace ts = (some c, r) → r.length + 1 ≤ ts.length := by
  induction ts with
  | nil =>
    intro h
    simp [skipWhitspace] at h
  | cons a ts ih =>
    intro h
    simp only [skipWhitspace] at h
    by_cases ha : isWhitespaceChar a = true
    · rw [if_pos ha] at h
      have := ih h
      simp only [List.length_cons]
      omega
    · rw [if_neg ha] at h
      simp only [Prod.mk.injEq, Option.some.injEq] at h
      rw [← h.2]
      simp

theorem stringBody_consume (ts : List Char) : ∀ acc esc s r,
    stringBody ts acc esc = .ok (s, r) → r.length + 1 ≤ ts.length := by
  induction ts with
  | nil =>
    intro acc esc s r h
    simp [stringBody] at h
  | cons c ts ih =>
    intro acc esc s r h
    simp only [stringBody] at h
    cases esc with
    | true =>
      simp only [if_pos rfl] at h
      have := ih _ _ _ _ h
      simp only [List.length_cons]
      omega
    | false =>
      simp only [Bool.false_eq_true, if_false] at h
      by_cases h1 : c = '"'
      · rw [if_pos h1] at h
        simp only [Except.ok.injEq, Prod.mk.injEq] at h
        rw [← h.2]
        simp
      · rw [if_neg h1] at h
        by_cases h2 : c = '\\'
        · rw [if_pos h2] at h
          have := ih _ _ _ _ h
          simp only [List.length_cons]
          omega
        · rw [if_neg h2] at h
          have := ih _ _ _ _ h
          simp only [List.length_cons]
          omega

theorem parseKey_consume (ts : List Char) (k r : List Char) :
    parseKey ts = .ok (k, r) → r.length + 2 ≤ ts.length := by
  intro h
  simp only [parseKey] at h
  rcases hsw : skipWhitspace ts with ⟨oc, ts₂⟩
  simp only [hsw] at h
  cases oc with
  | none => simp at h
  | some c =>
    by_cases h1 : c = '"'
    · simp only [if_pos h1] at h
      have h2 := stringBody_consume ts₂ [] false k r h
      have h3 := skipWhitspace_consume ts c ts₂ hsw
      omega
    · simp only [if_neg h1] at h
      simp at h

theorem skipColons_consume (ts r : List Char) :
    skipColons ts = .ok r → r.length + 1 ≤ ts.length := by
  intro h
  simp only [skipColons] at h
  rcases hsw : skipWhitspace ts with ⟨oc, ts₂⟩
  simp only [hsw] at h
  cases oc with
  | none => simp at h
  | some c =>
    by_cases h1 : c = ':'
    · simp only [if_pos h1, Except.ok.injEq] at h
      rw [← h]
      exact skipWhitspace_consume ts c ts₂ hsw
    · simp only [if_neg h1] at h
      simp at h

theorem commaLoop_consume (ts : List Char) : ∀ r, commaLoop ts = .ok r →
    r.length ≤ ts.length := by
  induction ts with
  | nil =>
    intro r h
    simp only [commaLoop, Except.ok.injEq] at h
    rw [← h]
  | cons c ts ih =>
    intro r h
    simp only [commaLoop] at h
    by_cases h1 : c = '}'
    · rw [if_pos h1] at h
      simp at h
    · rw [if_neg h1] at h
      by_cases h2 : isWhitespaceChar c = true
      · rw [if_pos h2] at h
        have := ih r h
        simp only [List.length_cons]
        omega
      · rw [if_neg h2] at h
        simp only [Except.ok.injEq] at h
        rw [← h]

theorem collectTF_le (ts : List Char) : (collectTF ts).2.length ≤ ts.length := by
  induction ts with
  | nil => simp [collectTF]
  | cons c ts ih =>
    simp only [collectTF]
    by_cases h1 : (isWhitespaceChar c || c = 'e') = true
    · rw [if_pos h1]
      simp
    · rw [if_neg h1]
      rcases hp : collectTF ts with ⟨a, r⟩
      rw [hp] at ih
      simp [hp]
      simp at ih
      omega

theorem collectNull_le (ts : List Char) : ∀ acc, (collectNull ts acc).2.length ≤ ts.length := by
  induction ts with
  | nil =>
    intro acc
    simp [collectNull]
  | cons c ts ih =>
    intro acc
    simp only [collectNull]
    by_cases h1 : (isWhitespaceChar c || (c = 'l' && (acc ++ [c]).length = 4)) = true
    · rw [if_pos h1]
      simp
    · rw [if_neg h1]
      have := ih (acc ++ [c])
      simp only [List.length_cons]
      omega

theorem objectScan_len (ts : List Char) : ∀ b o,
    (objectScan ts b o).1.length + (objectScan ts b o).2.length = ts.length := by
  induction ts with
  | nil =>
    intro b o
    simp [objectScan]
  | cons c ts ih =>
    intro b o
    simp only [objectScan]
    by_cases h1 : c = '"'
    · rw [if_pos h1]
      rcases hp : objectScan ts (!b) o with ⟨a, r⟩
      have := ih (!b) o
      rw [hp] at this
      simp [hp]
      simp at this
      omega
    · rw [if_neg h1]
      by_cases h2 : c = '{'
      · rw [if_pos h2]
        rcases hp : objectScan ts b (if b then o else o + 1) with ⟨a, r⟩
        have := ih b (if b then o else o + 1)
        rw [hp] at this
        simp [hp]
        simp at this
        omega
      · rw [if_neg h2]
        by_cases h3 : c = '}'
        · rw [if_pos h3]
          cases b with
          | true =>
            rcases hp : objectScan ts true o with ⟨a, r⟩
            have := ih true o
            rw [hp] at this
            simp [hp]
            simp at this
            omega
          | false =>
            simp only [Bool.false_eq_true, if_false]
            by_cases h4 : o = 0
            · rw [if_pos h4]
              simp
              omega
            · rw [if_neg h4]
              rcases hp : objectScan ts false (o - 1) with ⟨a, r⟩
              have := ih false (o - 1)
              rw [hp] at this
              simp [hp]
              simp at this
              omega
        · rw [if_neg h3]
          rcases hp : objectScan ts b o with ⟨a, r⟩
          have := ih b o
          rw [hp] at this
          simp [hp]
          simp at this
          omega

theorem dropWhile_length_le (p : Char → Bool) (l : List Char) :
    (l.dropWhile p).length ≤ l.length := by
  induction l with
  | nil => simp
  | cons c l ih =>
    rw [List.dropWhile_cons]
    by_cases h : p c = true
    · rw [if_pos h]
      simp only [List.length_cons]
      omega
    · rw [if_neg h]

theorem rustTrim_le (s : List Char) : (rustTrim s).length ≤ s.length := by
  unfold rustTrim
  simp only [List.length_reverse]
  calc ((s.dropWhile (fun c => isWhitespaceChar c)).reverse.dropWhile
          (fun c => isWhitespaceChar c)).length
      ≤ (s.dropWhile (fun c => isWhitespaceChar c)).reverse.length :=
        dropWhile_length_le _ _
    _ = (s.dropWhile (fun c => isWhitespaceChar c)).length := by simp
    _ ≤ s.length := dropWhile_length_le _ _

theorem parseNumericValue_consume (c : Char) (ts : List Char) (n : Int) (r : List Char) :
    parseNumericValue c ts = .ok (n, r) → r.length ≤ ts.length := by
  intro h
  simp only [parseNumericValue] at h
  rcases hpi : parseI32 (c :: ts.takeWhile (fun x => isNumericChar x)) with _ | m
  · simp [hpi] at h
  · simp only [hpi, Except.ok.injEq, Prod.mk.injEq] at h
    rw [← h.2]
    exact dropWhile_length_le _ _

theorem parseObjectValue_consume (f : Nat) (ts : List Char) (j : JSON) (r : List Char) :
    parseObjectValue f ts = some (.ok (j, r)) → r.length ≤ ts.length := by
  cases f with
  | zero =>
    intro h
    simp [parseObjectValue] at h
  | succ f =>
    intro h
    simp only [parseObjectValue] at h
    rcases hscan : objectScan ts false 0 with ⟨a, r₂⟩
    simp only [hscan] at h
    rcases hd : parseDoc f (rustTrim ('{' :: a)) with _ | d
    · simp [hd] at h
    · cases d with
      | ok json =>
        simp only [hd, Option.some.injEq, Except.ok.injEq, Prod.mk.injEq] at h
        obtain ⟨-, h2⟩ := h
        have h3 := objectScan_len ts false 0
        rw [hscan] at h3
        simp at h3
        rw [h2] at h3
        omega
      | error e => simp [hd] at h

theorem parse_consume (f : Nat) :
    (∀ ts v r, parseValue f ts = some (.ok (v, r)) → r.length + 1 ≤ ts.length) ∧
    (∀ acc ts vs r, parseArrayLoop f acc ts = some (.ok (vs, r)) → r.length ≤ ts.length) := by
  induction f with
  | zero =>
    constructor
    · intro ts v r h
      simp [parseValue] at h
    · intro acc ts vs r h
      simp [parseArrayLoop] at h
  | succ f ih =>
    constructor
    · intro ts v r h
      simp only [parseValue] at h
      rcases hsw : skipWhitspace ts with ⟨oc, ts₂⟩
      simp only [hsw] at h
      cases oc with
      | none => simp at h
      | some c =>
        have hc2 := skipWhitspace_consume ts c ts₂ hsw
        by_cases h1 : c = '"'
        · simp only [if_pos h1] at h
          rcases hsb : stringBody ts₂ [] false with e | ⟨s, r₂⟩
          · simp [hsb] at h
          · simp only [hsb, Option.some.injEq, Except.ok.injEq, Prod.mk.injEq] at h
            obtain ⟨-, h4⟩ := h
            have h5 := stringBody_consume ts₂ [] false s r₂ hsb
            rw [h4] at h5
            omega
        · simp only [if_neg h1] at h
          by_cases h2 : c = 'n'
          · simp only [if_pos h2] at h
            rcases hcn : collectNull ts₂ ['n'] with ⟨a, r₂⟩
            simp only [hcn] at h
            by_cases h3 : a = ['n', 'u', 'l', 'l']
            · simp only [if_pos h3, Option.some.injEq, Except.ok.injEq, Prod.mk.injEq] at h
              obtain ⟨-, h4⟩ := h
              have h5 := collectNull_le ts₂ ['n']
              rw [hcn] at h5
              simp at h5
              rw [h4] at h5
              omega
            · simp [if_neg h3] at h
          · simp only [if_neg h2] at h
            by_cases h3 : c = 't'
            · simp only [if_pos h3] at h
              rcases hct : collectTF ts₂ with ⟨a, r₂⟩
              simp only [hct] at h
              by_cases h4 : 't' :: a = ['t', 'r', 'u', 'e']
              · rw [if_pos h4] at h
                simp only [Option.some.injEq, Except.ok.injEq, Prod.mk.injEq] at h
                obtain ⟨-, h5⟩ := h
                have h6 := collectTF_le ts₂
                rw [hct] at h6
                simp at h6
                rw [h5] at h6
                omega
              · rw [if_neg h4] at h
                simp at h
            · simp only [if_neg h3] at h
              by_cases h4 : c = 'f'
              · simp only [if_pos h4] at h
                rcases hct : collectTF ts₂ with ⟨a, r₂⟩
                simp only [hct] at h
                by_cases h5 : 'f' :: a = ['f', 'a', 'l', 's', 'e']
                · rw [if_pos h5] at h
                  simp only [Option.some.injEq, Except.ok.injEq, Prod.mk.injEq] at h
                  obtain ⟨-, h6⟩ := h
                  have h7 := collectTF_le ts₂
                  rw [hct] at h7
                  simp at h7
                  rw [h6] at h7
                  omega
                · rw [if_neg h5] at h
                  simp at h
              · simp only [if_neg h4] at h
                by_cases h5 : c = '{'
                · simp only [if_pos h5] at h
                  rcases hov : parseObjectValue f ts₂ with _ | ov
                  · simp [hov] at h
                  · cases ov with
                    | error e => simp [hov] at h
                    | ok p =>
                      obtain ⟨j, r₂⟩ := p
                      simp only [hov, Option.some.injEq, Except.ok.injEq,
                        Prod.mk.injEq] at h
                      obtain ⟨-, h6⟩ := h
                      have h7 := parseObjectValue_consume f ts₂ j r₂ hov
                      rw [h6] at h7
                      omega
                · simp only [if_neg h5] at h
                  by_cases h6 : c = '['
                  · simp only [if_pos h6] at h
                    rcases hal : parseArrayLoop f [] ts₂ with _ | al
                    · simp [hal] at h
                    · cases al with
                      | error e => simp [hal] at h
                      | ok p =>
                        obtain ⟨vs, r₂⟩ := p
                        simp only [hal, Option.some.injEq, Except.ok.injEq,
                          Prod.mk.injEq] at h
                        obtain ⟨-, h7⟩ := h
                        have h8 := ih.2 [] ts₂ vs r₂ hal
                        rw [h7] at h8
                        omega
                  · simp only [if_neg h6] at h
                    by_cases h7 : (isNumericChar c || c = '-') = true
                    · simp only [h7, if_true] at h
                      rcases hpn : parseNumericValue c ts₂ with e | p
                      · simp [hpn] at h
                      · obtain ⟨n, r₂⟩ := p
                        simp only [hpn, Option.some.injEq, Except.ok.injEq,
                          Prod.mk.injEq] at h
                        obtain ⟨-, h8⟩ := h
                        have h9 := parseNumericValue_consume c ts₂ n r₂ hpn
                        rw [h8] at h9
                        omega
                    · simp only [h7, Bool.false_eq_true, if_false] at h
                      simp at h
    · intro acc ts vs r h
      simp only [parseArrayLoop] at h
      cases ts with
      | nil => simp at h
      | cons c ts' =>
        by_cases h1 : c = ']'
        · simp only [if_pos h1, Option.some.injEq, Except.ok.injEq, Prod.mk.injEq] at h
          rw [← h.2]
          simp
        · simp only [if_neg h1] at h
          rcases hpv : parseValue f (c :: ts') with _ | pv
          · simp [hpv] at h
          · cases pv with
            | error e => simp [hpv] at h
            | ok p =>
              obtain ⟨v₁, ts₂⟩ := p
              simp only [hpv] at h
              have hc1 : ts₂.length + 1 ≤ (c :: ts').length := ih.1 _ _ _ hpv
              rcases hsw : skipWhitspace ts₂ with ⟨oc, ts₃⟩
              simp only [hsw] at h
              cases oc with
              | none => simp at h
              | some c₂ =>
                have hc3 := skipWhitspace_consume ts₂ c₂ ts₃ hsw
                by_cases h4 : c₂ = ','
                · simp only [if_pos h4] at h
                  have := ih.2 (acc ++ [v₁]) ts₃ vs r h
                  simp only [List.length_cons] at hc1 ⊢
                  omega
                · simp only [if_neg h4] at h
                  by_cases h5 : c₂ = ']'
                  · simp only [if_pos h5, Option.some.injEq, Except.ok.injEq,
                      Prod.mk.injEq] at h
                    rw [← h.2]
                    simp only [List.length_cons] at hc1 ⊢
                    omega
                  · simp [if_neg h5] at h

theorem getPair_consume (f : Nat) (ts : List Char) (k : List Char) (v : JSONValue)
    (r : List Char) :
    getPair f ts = some (.ok ((k, v), r)) → r.length + 4 ≤ ts.length := by
  cases f with
  | zero =>
    intro h
    simp [getPair] at h
  | succ f =>
    intro h
    simp only [getPair] at h
    rcases hpk : parseKey ts with e | p
    · simp [hpk] at h
    · obtain ⟨k₂, ts₂⟩ := p
      simp only [hpk] at h
      rcases hsc : skipColons ts₂ with e | ts₃
      · simp [hsc] at h
      · simp only [hsc] at h
        rcases hpv : parseValue f ts₃ with _ | pv
        · simp [hpv] at h
        · cases pv with
          | error e => simp [hpv] at h
          | ok p =>
            obtain ⟨v₂, ts₄⟩ := p
            simp only [hpv, Option.some.injEq, Except.ok.injEq, Prod.mk.injEq] at h
            have c1 := parseKey_consume ts k₂ ts₂ hpk
            have c2 := skipColons_consume ts₂ ts₃ hsc
            have c3 := (parse_consume f).1 ts₃ v₂ ts₄ hpv
            rw [h.2] at c3
            omega

theorem parse_adequacy (f : Nat) :
    (∀ ts, 2 * ts.length + 4 ≤ f → parseValue f ts ≠ none) ∧
    (∀ acc ts, 2 * ts.length + 5 ≤ f → parseArrayLoop f acc ts ≠ none) ∧
    (∀ ts, 2 * ts.length + 5 ≤ f → parseObjectValue f ts ≠ none) ∧
    (∀ ts, 2 * ts.length + 2 ≤ f → parseDoc f ts ≠ none) ∧
    (∀ obj ts, 2 * ts.length + 3 ≤ f → parseLoop f obj ts ≠ none) ∧
    (∀ ts, 2 * ts.length + 2 ≤ f → getPair f ts ≠ none) := by
  induction f with
  | zero =>
    exact ⟨fun ts hb => absurd hb (by omega), fun acc ts hb => absurd hb (by omega),
      fun ts hb => absurd hb (by omega), fun ts hb => absurd hb (by omega),
      fun obj ts hb => absurd hb (by omega), fun ts hb => absurd hb (by omega)⟩
  | succ f ih =>
    obtain ⟨ihV, ihAL, ihO, ihD, ihL, ihG⟩ := ih
    refine ⟨?_, ?_, ?_, ?_, ?_, ?_⟩
    · intro ts hb
      simp only [parseValue]
      rcases hsw : skipWhitspace ts with ⟨oc, ts₂⟩
      cases oc with
      | none => simp
      | some c =>
        have hc2 := skipWhitspace_consume ts c ts₂ hsw
        by_cases h1 : c = '"'
        · simp only [if_pos h1]
          rcases hsb : stringBody ts₂ [] false with e | ⟨s, r⟩ <;> simp [hsb]
        · simp only [if_neg h1]
          by_cases h2 : c = 'n'
          · simp only [if_pos h2]
            rcases hcn : collectNull ts₂ ['n'] with ⟨a, r⟩
            simp only [hcn]
            split <;> simp
          · simp only [if_neg h2]
            by_cases h3 : c = 't'
            · simp only [if_pos h3]
              rcases hct : collectTF ts₂ with ⟨a, r⟩
              simp only [hct]
              split <;> simp
            · simp only [if_neg h3]
              by_cases h4 : c = 'f'
              · simp only [if_pos h4]
                rcases hct : collectTF ts₂ with ⟨a, r⟩
                simp only [hct]
                split <;> simp
              · simp only [if_neg h4]
                by_cases h5 : c = '{'
                · simp only [if_pos h5]
                  rcases hov : parseObjectValue f ts₂ with _ | ov
                  · exact absurd hov (ihO ts₂ (by omega))
                  · cases ov with
                    | ok p =>
                      obtain ⟨j, r⟩ := p
                      simp [hov]
                    | error e => simp [hov]
                · simp only [if_neg h5]
                  by_cases h6 : c = '['
                  · simp only [if_pos h6]
                    rcases hal : parseArrayLoop f [] ts₂ with _ | al
                    · exact absurd hal (ihAL [] ts₂ (by omega))
                    · cases al with
                      | ok p =>
                        obtain ⟨vs, r⟩ := p
                        simp [hal]
                      | error e => simp [hal]
                  · simp only [if_neg h6]
                    by_cases h7 : (isNumericChar c || c = '-') = true
                    · simp only [if_pos h7]
                      rcases hpn : parseNumericValue c ts₂ with e | ⟨n, r⟩ <;> simp [hpn]
                    · simp only [if_neg h7]
                      simp
    · intro acc ts hb
      simp only [parseArrayLoop]
      cases ts with
      | nil => simp
      | cons c ts' =>
        by_cases h1 : c = ']'
        · simp only [if_pos h1]
          simp
        · simp only [if_neg h1]
          rcases hpv : parseValue f (c :: ts') with _ | pv
          · refine absurd hpv (ihV (c :: ts') ?_)
            simp only [List.length_cons] at hb ⊢
            omega
          · cases pv with
            | error e => simp [hpv]
            | ok p =>
              obtain ⟨v, ts₂⟩ := p
              simp only [hpv]
              have hc1 := (parse_consume f).1 _ _ _ hpv
              rcases hsw : skipWhitspace ts₂ with ⟨oc, ts₃⟩
              cases oc with
              | none => simp
              | some c₂ =>
                have hc3 := skipWhitspace_consume ts₂ c₂ ts₃ hsw
                by_cases h4 : c₂ = ','
                · simp only [if_pos h4]
                  refine ihAL (acc ++ [v]) ts₃ ?_
                  simp only [List.length_cons] at hb hc1
                  omega
                · simp only [if_neg h4]
                  by_cases h5 : c₂ = ']'
                  · simp only [if_pos h5]
                    simp
                  · simp only [if_neg h5]
                    simp
    · intro ts hb
      simp only [parseObjectValue]
      rcases hscan : objectScan ts false 0 with ⟨a, r⟩
      simp only [hscan]
      have hlen := objectScan_len ts false 0
      rw [hscan] at hlen
      simp at hlen
      have htr := rustTrim_le ('{' :: a)
      rcases hd : parseDoc f (rustTrim ('{' :: a)) with _ | d
      · refine absurd hd (ihD _ ?_)
        simp only [List.length_cons] at htr
        omega
      · cases d with
        | ok j => simp [hd]
        | error e => simp [hd]
    · intro ts hb
      simp only [parseDoc]
      by_cases hc : ts.head? = some '{' ∧ ts.getLast? = some '}'
      · rw [if_pos hc]
        have hlen1 : 1 ≤ ts.length := by
          cases ts with
          | nil => simp at hc
          | cons a l => simp
        refine ihL [] (ts.drop 1) ?_
        simp only [List.length_drop]
        omega
      · rw [if_neg hc]
        simp
    · intro obj ts hb
      simp only [parseLoop]
      by_cases hl : 1 < ts.length
      · rw [if_pos hl]
        rcases hgp : getPair f ts with _ | g
        · exact absurd hgp (ihG ts (by omega))
        · cases g with
          | error e => simp [hgp]
          | ok p =>
            obtain ⟨⟨k, v⟩, ts₂⟩ := p
            simp only [hgp]
            have hc1 := getPair_consume f ts k v ts₂ hgp
            rcases hsw : skipWhitspace ts₂ with ⟨oc, ts₃⟩
            cases oc with
            | none => simp
            | some c =>
              have hc3 := skipWhitspace_consume ts₂ c ts₃ hsw
              by_cases h1 : c = '}'
              · simp only [if_pos h1]
                simp
              · simp only [if_neg h1]
                by_cases h2 : c = ','
                · simp only [if_pos h2]
                  rcases hcl : commaLoop ts₃ with e | ts₄
                  · simp [hcl]
                  · simp only [hcl]
                    have hc4 := commaLoop_consume ts₃ ts₄ hcl
                    exact ihL (insertPair obj k v) ts₄ (by omega)
                · simp only [if_neg h2]
                  simp
      · rw [if_neg hl]
        simp
    · intro ts hb
      simp only [getPair]
      rcases hpk : parseKey ts with e | ⟨k, ts₂⟩
      · simp [hpk]
      · simp only [hpk]
        have hc1 := parseKey_consume ts k ts₂ hpk
        rcases hsc : skipColons ts₂ with e | ts₃
        · simp [hsc]
        · simp only [hsc]
          have hc2 := skipColons_consume ts₂ ts₃ hsc
          rcases hpv : parseValue f ts₃ with _ | pv
          · exact absurd hpv (ihV ts₃ (by omega))
          · cases pv with
            | error e => simp [hpv]
            | ok p =>
              obtain ⟨v, ts₄⟩ := p
              simp [hpv]

/-- C8: for every finite input, the document parser reaches a result (a
document or a grammar error) within fuel proportional to the input
length: every loop advances the cursor or returns, and the recursive
call for a nested object works on text no longer than the remaining
input, so the fuel-indexed embedding never exhausts its fuel at the
amount the wrapper supplies. -/
theorem c8_termination (content : List Char) :
    ∃ r, parseDoc (2 * content.length + 2) content = some r := by
  rcases hd : parseDoc (2 * content.length + 2) content with _ | r
  · exact absurd hd ((parse_adequacy (2 * content.length + 2)).2.2.2.1 content (by omega))
  · exact ⟨r, rfl⟩
